import Mathlib

/-!
# TrafficRecorder (media/libstagefright/rtsp/TrafficRecorder.h)

A shallow embedding of the circular-array traffic recorder
`android::TrafficRecorder<Time, Bytes>` and theorems about it.

Modelling conventions:

* `size_t` / `unsigned long` values are natural numbers, and every arithmetic
  step on them is followed by an explicit `% 2 ^ 64` (LP64); `x - 1` is written
  `(x + (2 ^ 64 - 1)) % 2 ^ 64`.
* The two heap arrays are total functions `Nat → Time` and `Nat → Bytes`.
  `new Time[mSize]` does not initialise its elements, so the constructor takes
  the initial contents of the two arrays as arguments.
* The template parameters `Time` and `Bytes` stay parameters; the operations ask
  only for the operators the C++ text uses (`0`, `-`, `<`, `==`, `+`).
* The `while` loop of `readBytesForLastPeriod` is a function with an explicit
  bound on the number of body executions, returning `none` when the bound is hit.
* `LOG`/`ALOGD` output is not part of the state and is left out.
-/

namespace android

/-- The object state: the nine data members of `TrafficRecorder<Time, Bytes>`. -/
@[ext]
structure TrafficRecorder (Time Bytes : Type) where
  mSize : Nat
  mSizeMask : Nat
  mTimeArray : Nat → Time
  mBytesArray : Nat → Bytes
  mHeadIdx : Nat
  mTailIdx : Nat
  mClock : Time
  mLastTimeOfPrint : Time
  mAccuBytesOfPrint : Bytes

namespace TrafficRecorder

section Operations

variable {Time Bytes : Type}

/-- The method `init()`: both indices to 0, slot 0 set to time 0 and bytes 0. -/
def init [Zero Time] [Zero Bytes] (s : TrafficRecorder Time Bytes) :
    TrafficRecorder Time Bytes :=
  { s with
    mHeadIdx := 0
    mTailIdx := 0
    mTimeArray := Function.update s.mTimeArray 0 0
    mBytesArray := Function.update s.mBytesArray 0 0 }

/-- The `for (exp = 0; exp < 32; exp++) if (size <= (1ul << exp)) break;` loop of the
constructor. The first argument counts the iterations still allowed by `exp < 32`;
the result is the value of `exp` after the loop. -/
def ctorExp (size : Nat) : Nat → Nat → Nat
  | 0, exp => exp
  | n + 1, exp => if size ≤ (1 <<< exp) % 2 ^ 64 then exp else ctorExp size n (exp + 1)

/-- The constructor `TrafficRecorder(size_t size)`. `timeMem` and `bytesMem` are the
contents of the freshly allocated (uninitialised) arrays. -/
def ctor [Zero Time] [Zero Bytes] (size : Nat) (timeMem : Nat → Time)
    (bytesMem : Nat → Bytes) : TrafficRecorder Time Bytes :=
  let exp := ctorExp size 32 0
  let mSize := (1 <<< exp) % 2 ^ 64
  init
    { mSize := mSize
      mSizeMask := (mSize + (2 ^ 64 - 1)) % 2 ^ 64
      mTimeArray := timeMem
      mBytesArray := bytesMem
      mHeadIdx := 0
      mTailIdx := 0
      mClock := 0
      mLastTimeOfPrint := 0
      mAccuBytesOfPrint := 0 }

/-- The method `updateClock(Time now)`. -/
def updateClock (s : TrafficRecorder Time Bytes) (now : Time) : TrafficRecorder Time Bytes :=
  { s with mClock := now }

/-- The `while (i != mHeadIdx)` loop of `readBytesForLastPeriod`, started at index `i`
with `bytes` already summed; `cutoff` is `mClock - period`. The first argument bounds
the number of times the loop body may still be entered. The result is the final
`(i, bytes)`, or `none` when the bound does not suffice. -/
def readLoop [LT Time] [DecidableRel ((· < ·) : Time → Time → Prop)] [Add Bytes]
    (s : TrafficRecorder Time Bytes) (cutoff : Time) : Nat → Nat → Bytes → Option (Nat × Bytes)
  | fuel, i, bytes =>
    if i = s.mHeadIdx then some (i, bytes)
    else
      match fuel with
      | 0 => none
      | fuel + 1 =>
        if s.mTimeArray i < cutoff then some (i, bytes)
        else
          readLoop s cutoff fuel (((i + s.mSize + (2 ^ 64 - 1)) % 2 ^ 64) &&& s.mSizeMask)
            (bytes + s.mBytesArray i)

/-- The method `readBytesForLastPeriod(Time period)`: the returned byte count and the
state after the call. The loop is given `mSize` body executions. -/
def readBytesForLastPeriod [Sub Time] [LT Time] [DecidableRel ((· < ·) : Time → Time → Prop)]
    [Zero Bytes] [Add Bytes] (s : TrafficRecorder Time Bytes) (period : Time) :
    Option (Bytes × TrafficRecorder Time Bytes) :=
  match readLoop s (s.mClock - period) s.mSize s.mTailIdx 0 with
  | none => none
  | some (i, bytes) => some (bytes, { s with mHeadIdx := i })

/-- The method `writeBytes(Bytes bytes)`. -/
def writeBytes [DecidableEq Time] [Add Bytes] (s : TrafficRecorder Time Bytes) (bytes : Bytes) :
    TrafficRecorder Time Bytes :=
  let writeIdx : Nat :=
    if s.mClock = s.mTimeArray s.mTailIdx then s.mTailIdx
    else ((s.mTailIdx + 1) % 2 ^ 64) % s.mSize
  let s1 : TrafficRecorder Time Bytes :=
    if s.mClock = s.mTimeArray s.mTailIdx then
      { s with mBytesArray := Function.update s.mBytesArray writeIdx (s.mBytesArray writeIdx + bytes) }
    else
      { s with
        mTimeArray := Function.update s.mTimeArray writeIdx s.mClock
        mBytesArray := Function.update s.mBytesArray writeIdx bytes }
  let s2 : TrafficRecorder Time Bytes :=
    if writeIdx = s1.mHeadIdx then
      { s1 with mHeadIdx := ((s1.mHeadIdx + 1) % 2 ^ 64) &&& s1.mSizeMask }
    else s1
  { s2 with
    mTailIdx := writeIdx
    mAccuBytesOfPrint := s2.mAccuBytesOfPrint + bytes }

/-- The method `printAccuBitsForLastPeriod(Time period, Time unit)`. The floating-point
rate is only logged, so `unit` does not reach the state. -/
def printAccuBitsForLastPeriod [Zero Time] [Sub Time] [LT Time]
    [DecidableRel ((· < ·) : Time → Time → Prop)] [Zero Bytes]
    (s : TrafficRecorder Time Bytes) (period _unit : Time) : TrafficRecorder Time Bytes :=
  let duration := s.mClock - s.mLastTimeOfPrint
  if duration > period then
    init { s with mLastTimeOfPrint := s.mClock, mAccuBytesOfPrint := 0 }
  else s

end Operations

end TrafficRecorder

open TrafficRecorder

/-- The pair of calls `updateClock(now); writeBytes(bytes);`. -/
def recordAt {Time Bytes : Type} [DecidableEq Time] [Add Bytes]
    (s : TrafficRecorder Time Bytes) (w : Time × Bytes) : TrafficRecorder Time Bytes :=
  writeBytes (updateClock s w.1) w.2

/-- One `updateClock`/`writeBytes` pair per element of `ws`, first element first. -/
def recordAll {Time Bytes : Type} [DecidableEq Time] [Add Bytes]
    (s : TrafficRecorder Time Bytes) (ws : List (Time × Bytes)) : TrafficRecorder Time Bytes :=
  ws.foldl recordAt s

/-- The class invariant the constructor establishes for the capacity fields, together
with both indices lying inside the arrays. -/
def WellFormed {Time Bytes : Type} (s : TrafficRecorder Time Bytes) : Prop :=
  (∃ e, e ≤ 32 ∧ s.mSize = 2 ^ e) ∧ s.mSizeMask = s.mSize - 1 ∧
    s.mHeadIdx < s.mSize ∧ s.mTailIdx < s.mSize

/-- The state the window examples start from: a recorder constructed with requested size
`k`, then 5 bytes recorded at each of the clock values 0, 10, 20 and 30. -/
def windowExample (k : Nat) (tm bm : Nat → Int) : TrafficRecorder Int Int :=
  recordAll (ctor k tm bm) [(0, 5), (10, 5), (20, 5), (30, 5)]

/-- The cyclic successor of an index below the capacity `C`: the value both
`(i + 1) % mSize` and `(i + 1) & mSizeMask` take on a well-formed recorder. -/
def succIdx (C i : Nat) : Nat := if i + 1 = C then 0 else i + 1

/-- The cyclic predecessor of an index below the capacity `C`: the value
`(i + mSize - 1) & mSizeMask` takes on a well-formed recorder. -/
def predIdx (C i : Nat) : Nat := if i = 0 then C - 1 else i - 1

/-- The number of `predIdx` steps that lead from index `i` to index `h`, both below the
capacity `C`. -/
def backDist (C i h : Nat) : Nat := if h ≤ i then i - h else i + C - h

/-- The samples `(time, bytes)` met by `n` steps of the backward walk that starts at
index `i`, newest first. -/
def walkBack (s : TrafficRecorder Int Int) : Nat → Nat → List (Int × Int)
  | 0, _ => []
  | n + 1, i => (s.mTimeArray i, s.mBytesArray i) :: walkBack s n (predIdx s.mSize i)

/-- The samples a read can reach: the slots from tail back to, but excluding, head. -/
def window (s : TrafficRecorder Int Int) : List (Int × Int) :=
  walkBack s (backDist s.mSize s.mTailIdx s.mHeadIdx) s.mTailIdx

/-- The sum of the byte counts of the samples in `l` whose timestamp is at least `c`. -/
def sumFrom (c : Int) (l : List (Int × Int)) : Int :=
  ((l.filter fun x => decide (c ≤ x.1)).map Prod.snd).sum

/-- A call of the write-side interface: `updateClock(now)` or `writeBytes(bytes)`. -/
inductive Call where
  | AdvanceClock (now : Int)
  | RecordBytes (bytes : Int)

/-- The effect of one call on the recorder. -/
def step (s : TrafficRecorder Int Int) : Call → TrafficRecorder Int Int
  | .AdvanceClock now => updateClock s now
  | .RecordBytes bytes => writeBytes s bytes

/-- The effect of a sequence of calls, first call first. -/
def run (s : TrafficRecorder Int Int) (calls : List Call) : TrafficRecorder Int Int :=
  calls.foldl step s

/-- The clock value in effect after each call of the sequence, for a recorder whose clock
is `c` before the first call. -/
def clockTrace (c : Int) : List Call → List Int
  | [] => []
  | .AdvanceClock now :: r => now :: clockTrace now r
  | .RecordBytes _ :: r => c :: clockTrace c r

/-- The reference log: for each `writeBytes` call of the sequence, the clock value it was
made at and its byte count, in call order. `c` is the clock before the first call. -/
def written (c : Int) : List Call → List (Int × Int)
  | [] => []
  | .AdvanceClock now :: r => written now r
  | .RecordBytes bytes :: r => (c, bytes) :: written c r

/-- The clock after the whole sequence, for a recorder whose clock is `c` before it. -/
def finalClock (c : Int) : List Call → Int
  | [] => c
  | .AdvanceClock now :: r => finalClock now r
  | .RecordBytes _ :: r => finalClock c r

/-- The invariant of a recorder that was only written to, at positive non-decreasing clock
values, without overflow, `log` being the writes made so far: head is still 0, slot 0
still holds the seed time 0, the reachable samples have strictly decreasing positive
timestamps (newest first), none beyond the clock, and they carry the same byte totals
as the log. -/
def WindowInv (s : TrafficRecorder Int Int) (log : List (Int × Int)) : Prop :=
  WellFormed s ∧ s.mHeadIdx = 0 ∧ s.mTimeArray 0 = 0 ∧
    ((window s).map Prod.fst).Pairwise (· > ·) ∧
    (∀ x ∈ window s, 0 < x.1 ∧ x.1 ≤ s.mClock) ∧
    (∀ x ∈ window s, x.1 ∈ log.map Prod.fst) ∧
    ∀ c, sumFrom c (window s) = sumFrom c log

/-- A call of the public interface, with integer time and byte counts. -/
inductive Op where
  | init
  | AdvanceClock (now : Int)
  | RecordBytes (bytes : Int)
  | SumLastPeriod (period : Int)
  | ReportIfDue (period unit : Int)

/-- The state after one call; `none` when the read loop is not done within its bound. -/
def applyOp (s : TrafficRecorder Int Int) : Op → Option (TrafficRecorder Int Int)
  | .init => some (init s)
  | .AdvanceClock now => some (updateClock s now)
  | .RecordBytes bytes => some (writeBytes s bytes)
  | .SumLastPeriod period => (readBytesForLastPeriod s period).map Prod.snd
  | .ReportIfDue period unit => some (printAccuBitsForLastPeriod s period unit)

/-- The state after a sequence of calls, first call first. -/
def runOps (s : TrafficRecorder Int Int) : List Op → Option (TrafficRecorder Int Int)
  | [] => some s
  | op :: r => (applyOp s op).bind fun s2 => runOps s2 r

/-- The reference for the print accumulator: the arguments of the `RecordBytes` calls made
since the last `ReportIfDue` call that flushed (one made when `clock - last > period`).
`clock` and `last` are the clock and the time of the last flush before the first call,
`acc` the arguments already collected. -/
def bytesSinceFlush (clock last : Int) (acc : List Int) : List Op → List Int
  | [] => acc
  | .init :: r => bytesSinceFlush clock last acc r
  | .AdvanceClock now :: r => bytesSinceFlush now last acc r
  | .RecordBytes bytes :: r => bytesSinceFlush clock last (acc ++ [bytes]) r
  | .SumLastPeriod _ :: r => bytesSinceFlush clock last acc r
  | .ReportIfDue period _ :: r =>
    if clock - last > period then bytesSinceFlush clock clock [] r
    else bytesSinceFlush clock last acc r

/-- The array indices `writeBytes` uses: `mTailIdx` (read of `mTimeArray[mTailIdx]`) and
`writeIdx`. -/
def writeBytesIndices (s : TrafficRecorder Int Int) : List Nat :=
  [s.mTailIdx,
    if s.mClock = s.mTimeArray s.mTailIdx then s.mTailIdx
    else ((s.mTailIdx + 1) % 2 ^ 64) % s.mSize]

/-- The array indices the loop of `readBytesForLastPeriod` uses, started at index `i`: one
for each entry into the loop body. Same bound on body entries as `readLoop`. -/
def readLoopIndices (s : TrafficRecorder Int Int) (cutoff : Int) : Nat → Nat → List Nat
  | fuel, i =>
    if i = s.mHeadIdx then []
    else
      match fuel with
      | 0 => []
      | fuel + 1 =>
        if s.mTimeArray i < cutoff then [i]
        else
          i :: readLoopIndices s cutoff fuel
            (((i + s.mSize + (2 ^ 64 - 1)) % 2 ^ 64) &&& s.mSizeMask)

/-- The data members of an object whose array pointers may still be `NULL` (`none`). -/
structure Members (Time Bytes : Type) where
  mSize : Nat
  mSizeMask : Nat
  mTimeArray : Option (Nat → Time)
  mBytesArray : Option (Nat → Bytes)
  mHeadIdx : Nat
  mTailIdx : Nat
  mClock : Time
  mLastTimeOfPrint : Time
  mAccuBytesOfPrint : Bytes

/-- The members of a recorder built by `TrafficRecorder(size_t)`: both arrays allocated. -/
def membersOf {Time Bytes : Type} (s : TrafficRecorder Time Bytes) : Members Time Bytes :=
  { mSize := s.mSize
    mSizeMask := s.mSizeMask
    mTimeArray := some s.mTimeArray
    mBytesArray := some s.mBytesArray
    mHeadIdx := s.mHeadIdx
    mTailIdx := s.mTailIdx
    mClock := s.mClock
    mLastTimeOfPrint := s.mLastTimeOfPrint
    mAccuBytesOfPrint := s.mAccuBytesOfPrint }

/-- The constructor `TrafficRecorder()`. Its body `TrafficRecorder(128);` builds and
destroys a temporary object; the object under construction keeps its default member
initialisers. `mSize` and `mSizeMask` have none, so their indeterminate values are the
arguments `sizeMem` and `maskMem`; `timeMem` and `bytesMem` are the arrays of the
temporary. -/
def defaultCtor {Time Bytes : Type} [Zero Time] [Zero Bytes] (sizeMem maskMem : Nat)
    (timeMem : Nat → Time) (bytesMem : Nat → Bytes) : Members Time Bytes :=
  let _temporary : TrafficRecorder Time Bytes := ctor 128 timeMem bytesMem
  { mSize := sizeMem
    mSizeMask := maskMem
    mTimeArray := none
    mBytesArray := none
    mHeadIdx := 0
    mTailIdx := 0
    mClock := 0
    mLastTimeOfPrint := 0
    mAccuBytesOfPrint := 0 }

/-- Among the slots from head to tail, a slot nearer to tail holds a strictly later
timestamp: walking forward from head to tail the timestamps strictly increase. -/
def SlotsOrdered (s : TrafficRecorder Int Int) : Prop :=
  ∀ i j, i < s.mSize → j < s.mSize →
    backDist s.mSize s.mTailIdx i < backDist s.mSize s.mTailIdx j →
    backDist s.mSize s.mTailIdx j ≤ backDist s.mSize s.mTailIdx s.mHeadIdx →
    s.mTimeArray j < s.mTimeArray i

/-- The invariant behind the ordering of the stored timestamps: the slots are ordered, the
newest timestamp is not beyond the clock, and a store with head = tail (capacity at least
2) holds the seed time 0 or a timestamp before the clock. -/
def OrderInv (s : TrafficRecorder Int Int) : Prop :=
  WellFormed s ∧ SlotsOrdered s ∧ s.mTimeArray s.mTailIdx ≤ s.mClock ∧
    (2 ≤ s.mSize → s.mTailIdx = s.mHeadIdx →
      s.mTimeArray s.mTailIdx = 0 ∨ s.mTimeArray s.mTailIdx < s.mClock)

/-- Call sequences with a non-decreasing clock (starting from `clock`), writes only at a
strictly positive clock, reads only with a non-negative period, and neither `init` nor
`printAccuBitsForLastPeriod`. -/
def OrderedCalls (clock : Int) : List Op → Prop
  | [] => True
  | .init :: _ => False
  | .AdvanceClock now :: r => clock ≤ now ∧ OrderedCalls now r
  | .RecordBytes _ :: r => 0 < clock ∧ OrderedCalls clock r
  | .SumLastPeriod period :: r => 0 ≤ period ∧ OrderedCalls clock r
  | .ReportIfDue _ _ :: _ => False

/-! ## Index arithmetic -/

theorem pow_le_two_pow_32 (e : Nat) (he : e ≤ 32) : 2 ^ e ≤ 4294967296 := by
  calc 2 ^ e ≤ 2 ^ 32 := Nat.pow_le_pow_right (by decide) he
    _ = 4294967296 := by norm_num

theorem prevIdx_eq (C e i : Nat) (he : e ≤ 32) (hC : C = 2 ^ e) (hi : i < C) :
    ((i + C + (2 ^ 64 - 1)) % 2 ^ 64) &&& (C - 1) = predIdx C i := by
  have h32 := pow_le_two_pow_32 e he
  rw [hC, Nat.and_pow_two_sub_one_eq_mod, ← hC]
  have h1 : (i + C + (2 ^ 64 - 1)) % 2 ^ 64 = i + C - 1 := by
    norm_num
    omega
  rw [h1]
  unfold predIdx
  split
  · rename_i h0
    subst h0
    rw [Nat.zero_add]; exact Nat.mod_eq_of_lt (by omega)
  · have : i + C - 1 = (i - 1) + C := by omega
    rw [this, Nat.add_mod_right]
    exact Nat.mod_eq_of_lt (by omega)

theorem nextIdx_mod (C e i : Nat) (he : e ≤ 32) (hC : C = 2 ^ e) (hi : i < C) :
    ((i + 1) % 2 ^ 64) % C = succIdx C i := by
  have h32 := pow_le_two_pow_32 e he
  have h1 : (i + 1) % 2 ^ 64 = i + 1 := by
    norm_num
    omega
  rw [h1]
  unfold succIdx
  split
  · rename_i h0
    rw [h0]; exact Nat.mod_self _
  · exact Nat.mod_eq_of_lt (by omega)

theorem nextIdx_mask (C e i : Nat) (he : e ≤ 32) (hC : C = 2 ^ e) (hi : i < C) :
    ((i + 1) % 2 ^ 64) &&& (C - 1) = succIdx C i := by
  rw [← nextIdx_mod C e i he hC hi]
  rw [hC, Nat.and_pow_two_sub_one_eq_mod]

theorem succIdx_lt (C i : Nat) (hi : i < C) : succIdx C i < C := by
  unfold succIdx; split <;> omega

theorem predIdx_lt (C i : Nat) (hi : i < C) : predIdx C i < C := by
  unfold predIdx; split <;> omega

/-! ## The constructor -/

theorem ctorExp_spec (size : Nat) (n exp : Nat) :
    exp ≤ ctorExp size n exp ∧ ctorExp size n exp ≤ exp + n ∧
      (ctorExp size n exp < exp + n → size ≤ (1 <<< ctorExp size n exp) % 2 ^ 64) ∧
      ∀ j, exp ≤ j → j < ctorExp size n exp → ¬ size ≤ (1 <<< j) % 2 ^ 64 := by
  induction n generalizing exp with
  | zero =>
    refine ⟨le_refl _, le_refl _, fun h => ?_, fun j h1 h2 => ?_⟩
    · simp [ctorExp] at h
    · simp [ctorExp] at h2; omega
  | succ n ih =>
    unfold ctorExp
    split
    · rename_i h
      refine ⟨le_refl _, by omega, fun _ => h, fun j h1 h2 => by omega⟩
    · rename_i h
      obtain ⟨h1, h2, h3, h4⟩ := ih (exp + 1)
      refine ⟨by omega, by omega, fun hlt => h3 (by omega), fun j hj1 hj2 => ?_⟩
      by_cases hje : j = exp
      · subst hje; exact h
      · exact h4 j (by omega) hj2

theorem shl_one_mod (e : Nat) (he : e ≤ 32) : (1 <<< e) % 2 ^ 64 = 2 ^ e := by
  rw [Nat.one_shiftLeft]
  apply Nat.mod_eq_of_lt
  calc 2 ^ e ≤ 2 ^ 32 := Nat.pow_le_pow_right (by decide) he
    _ < 2 ^ 64 := by norm_num

theorem ctorExp_le (size : Nat) : ctorExp size 32 0 ≤ 32 := by
  have := (ctorExp_spec size 32 0).2.1
  omega

theorem ctor_mSize {Time Bytes : Type} [Zero Time] [Zero Bytes] (k : Nat) (tm : Nat → Time)
    (bm : Nat → Bytes) : (ctor k tm bm).mSize = 2 ^ ctorExp k 32 0 := by
  simp only [ctor, init]
  exact shl_one_mod _ (ctorExp_le k)

theorem ctor_wellFormed {Time Bytes : Type} [Zero Time] [Zero Bytes] (k : Nat)
    (tm : Nat → Time) (bm : Nat → Bytes) : WellFormed (ctor k tm bm) := by
  have hle := ctorExp_le k
  have hs := shl_one_mod _ hle
  have hpos : 0 < 2 ^ ctorExp k 32 0 := Nat.pow_pos (by decide)
  have h32 := pow_le_two_pow_32 _ hle
  refine ⟨⟨ctorExp k 32 0, hle, ctor_mSize k tm bm⟩, ?_, ?_, ?_⟩
  · simp only [ctor, init]
    rw [hs]
    norm_num
    omega
  · rw [ctor_mSize]; simp [ctor, init]
  · rw [ctor_mSize]; simp [ctor, init]

/-! ## What `writeBytes` does on a well-formed recorder -/

theorem writeBytes_coalesce {Time Bytes : Type} [DecidableEq Time] [Add Bytes]
    (s : TrafficRecorder Time Bytes) (hwf : WellFormed s) (b : Bytes)
    (hc : s.mClock = s.mTimeArray s.mTailIdx) :
    writeBytes s b =
      { s with
        mBytesArray := Function.update s.mBytesArray s.mTailIdx (s.mBytesArray s.mTailIdx + b)
        mHeadIdx := if s.mTailIdx = s.mHeadIdx then succIdx s.mSize s.mHeadIdx else s.mHeadIdx
        mAccuBytesOfPrint := s.mAccuBytesOfPrint + b } := by
  obtain ⟨⟨e, he, hC⟩, hM, hH, hT⟩ := hwf
  have hmask := nextIdx_mask s.mSize e s.mHeadIdx he hC hH
  rw [← hM] at hmask
  unfold writeBytes
  simp only [hc, if_true]
  by_cases hth : s.mTailIdx = s.mHeadIdx
  · simp only [hth, if_true, hmask]
  · simp only [hth, if_false]

theorem writeBytes_append {Time Bytes : Type} [DecidableEq Time] [Add Bytes]
    (s : TrafficRecorder Time Bytes) (hwf : WellFormed s) (b : Bytes)
    (hc : s.mClock ≠ s.mTimeArray s.mTailIdx) :
    writeBytes s b =
      { s with
        mTimeArray := Function.update s.mTimeArray (succIdx s.mSize s.mTailIdx) s.mClock
        mBytesArray := Function.update s.mBytesArray (succIdx s.mSize s.mTailIdx) b
        mHeadIdx :=
          if succIdx s.mSize s.mTailIdx = s.mHeadIdx then succIdx s.mSize s.mHeadIdx
          else s.mHeadIdx
        mTailIdx := succIdx s.mSize s.mTailIdx
        mAccuBytesOfPrint := s.mAccuBytesOfPrint + b } := by
  obtain ⟨⟨e, he, hC⟩, hM, hH, hT⟩ := hwf
  have hmask := nextIdx_mask s.mSize e s.mHeadIdx he hC hH
  have hmod := nextIdx_mod s.mSize e s.mTailIdx he hC hT
  rw [← hM] at hmask
  unfold writeBytes
  simp only [hc, if_false, hmod]
  by_cases hth : succIdx s.mSize s.mTailIdx = s.mHeadIdx
  · simp only [hth, if_true, hmask]
  · simp only [hth, if_false]

theorem writeBytes_wellFormed {Time Bytes : Type} [DecidableEq Time] [Add Bytes]
    (s : TrafficRecorder Time Bytes) (hwf : WellFormed s) (b : Bytes) :
    WellFormed (writeBytes s b) := by
  have hwf0 := hwf
  obtain ⟨⟨e, he, hC⟩, hM, hH, hT⟩ := hwf
  have h1 := succIdx_lt s.mSize s.mHeadIdx hH
  have h2 := succIdx_lt s.mSize s.mTailIdx hT
  by_cases hc : s.mClock = s.mTimeArray s.mTailIdx
  · rw [writeBytes_coalesce s hwf0 b hc]
    refine ⟨⟨e, he, hC⟩, hM, ?_, hT⟩
    show (if s.mTailIdx = s.mHeadIdx then succIdx s.mSize s.mHeadIdx else s.mHeadIdx) < s.mSize
    split <;> assumption
  · rw [writeBytes_append s hwf0 b hc]
    refine ⟨⟨e, he, hC⟩, hM, ?_, h2⟩
    show (if succIdx s.mSize s.mTailIdx = s.mHeadIdx then succIdx s.mSize s.mHeadIdx
      else s.mHeadIdx) < s.mSize
    split <;> assumption

theorem updateClock_wellFormed {Time Bytes : Type} (s : TrafficRecorder Time Bytes)
    (hwf : WellFormed s) (now : Time) : WellFormed (updateClock s now) := hwf

theorem recordAt_coalesce {Time Bytes : Type} [DecidableEq Time] [Add Bytes]
    (s : TrafficRecorder Time Bytes) (hwf : WellFormed s) (t : Time) (b : Bytes)
    (hc : t = s.mTimeArray s.mTailIdx) :
    recordAt s (t, b) =
      { s with
        mClock := t
        mBytesArray := Function.update s.mBytesArray s.mTailIdx (s.mBytesArray s.mTailIdx + b)
        mHeadIdx := if s.mTailIdx = s.mHeadIdx then succIdx s.mSize s.mHeadIdx else s.mHeadIdx
        mAccuBytesOfPrint := s.mAccuBytesOfPrint + b } := by
  unfold recordAt
  rw [writeBytes_coalesce (updateClock s t) hwf b hc]
  rfl

theorem recordAt_append {Time Bytes : Type} [DecidableEq Time] [Add Bytes]
    (s : TrafficRecorder Time Bytes) (hwf : WellFormed s) (t : Time) (b : Bytes)
    (hc : t ≠ s.mTimeArray s.mTailIdx) :
    recordAt s (t, b) =
      { s with
        mClock := t
        mTimeArray := Function.update s.mTimeArray (succIdx s.mSize s.mTailIdx) t
        mBytesArray := Function.update s.mBytesArray (succIdx s.mSize s.mTailIdx) b
        mHeadIdx :=
          if succIdx s.mSize s.mTailIdx = s.mHeadIdx then succIdx s.mSize s.mHeadIdx
          else s.mHeadIdx
        mTailIdx := succIdx s.mSize s.mTailIdx
        mAccuBytesOfPrint := s.mAccuBytesOfPrint + b } := by
  unfold recordAt
  rw [writeBytes_append (updateClock s t) hwf b hc]
  rfl

theorem recordAt_wellFormed {Time Bytes : Type} [DecidableEq Time] [Add Bytes]
    (s : TrafficRecorder Time Bytes) (hwf : WellFormed s) (w : Time × Bytes) :
    WellFormed (recordAt s w) :=
  writeBytes_wellFormed _ (updateClock_wellFormed s hwf w.1) w.2

/-! ## Reading when nothing can be visited -/

theorem readLoop_at_head {Time Bytes : Type} [LT Time]
    [DecidableRel ((· < ·) : Time → Time → Prop)] [Add Bytes]
    (s : TrafficRecorder Time Bytes) (c : Time) (fuel : Nat) (acc : Bytes) :
    readLoop s c fuel s.mHeadIdx acc = some (s.mHeadIdx, acc) := by
  unfold readLoop
  simp

theorem read_of_head_eq_tail {Time Bytes : Type} [Sub Time] [LT Time]
    [DecidableRel ((· < ·) : Time → Time → Prop)] [Zero Bytes] [Add Bytes]
    (s : TrafficRecorder Time Bytes) (h : s.mHeadIdx = s.mTailIdx) (p : Time) :
    readBytesForLastPeriod s p = some (0, s) := by
  have hl : readLoop s (s.mClock - p) s.mSize s.mTailIdx 0 = some (s.mHeadIdx, 0) := by
    rw [← h]; exact readLoop_at_head s _ _ _
  unfold readBytesForLastPeriod
  rw [hl]

theorem foldl_updateClock_fields {Time Bytes : Type} (clocks : List Time)
    (s : TrafficRecorder Time Bytes) :
    (clocks.foldl updateClock s).mHeadIdx = s.mHeadIdx ∧
      (clocks.foldl updateClock s).mTailIdx = s.mTailIdx := by
  induction clocks generalizing s with
  | nil => exact ⟨rfl, rfl⟩
  | cons t r ih => exact ih (updateClock s t)

/-! ## Single steps of the read loop on a well-formed recorder -/

theorem readLoop_stop {Time Bytes : Type} [LT Time]
    [DecidableRel ((· < ·) : Time → Time → Prop)] [Add Bytes]
    (s : TrafficRecorder Time Bytes) (c : Time) (fuel i : Nat) (acc : Bytes)
    (hi : i ≠ s.mHeadIdx) (hlt : s.mTimeArray i < c) :
    readLoop s c (fuel + 1) i acc = some (i, acc) := by
  unfold readLoop
  simp only [hi, if_false, hlt, if_true]

theorem readLoop_step {Time Bytes : Type} [LT Time]
    [DecidableRel ((· < ·) : Time → Time → Prop)] [Add Bytes]
    (s : TrafficRecorder Time Bytes) (hwf : WellFormed s) (c : Time) (fuel i : Nat)
    (acc : Bytes) (hiC : i < s.mSize) (hi : i ≠ s.mHeadIdx) (hge : ¬ s.mTimeArray i < c) :
    readLoop s c (fuel + 1) i acc =
      readLoop s c fuel (predIdx s.mSize i) (acc + s.mBytesArray i) := by
  obtain ⟨⟨e, he, hC⟩, hM, -, -⟩ := hwf
  have hp := prevIdx_eq s.mSize e i he hC hiC
  rw [← hM] at hp
  conv_lhs => unfold readLoop
  simp only [hi, if_false, hge, hp]

theorem readLoop_fuel_mono {Time Bytes : Type} [LT Time]
    [DecidableRel ((· < ·) : Time → Time → Prop)] [Add Bytes]
    (s : TrafficRecorder Time Bytes) (c : Time) (fuel fuel2 i : Nat) (acc : Bytes)
    (r : Nat × Bytes) (h : readLoop s c fuel i acc = some r) (hle : fuel ≤ fuel2) :
    readLoop s c fuel2 i acc = some r := by
  induction fuel generalizing fuel2 i acc with
  | zero =>
    unfold readLoop at h ⊢
    by_cases hi : i = s.mHeadIdx
    · simpa [hi] using h
    · simp [hi] at h
  | succ n ih =>
    obtain ⟨m, rfl⟩ : ∃ m, fuel2 = m + 1 := ⟨fuel2 - 1, by omega⟩
    unfold readLoop at h ⊢
    by_cases hi : i = s.mHeadIdx
    · simpa [hi] using h
    · by_cases hlt : s.mTimeArray i < c
      · simpa [hi, hlt] using h
      · simp only [hi, if_false, hlt] at h ⊢
        exact ih m _ _ h (by omega)

theorem read_of_readLoop {Time Bytes : Type} [Sub Time] [LT Time]
    [DecidableRel ((· < ·) : Time → Time → Prop)] [Zero Bytes] [Add Bytes]
    (s : TrafficRecorder Time Bytes) (p : Time) (fuel i : Nat) (v : Bytes)
    (h : readLoop s (s.mClock - p) fuel s.mTailIdx 0 = some (i, v)) (hle : fuel ≤ s.mSize) :
    readBytesForLastPeriod s p = some (v, { s with mHeadIdx := i }) := by
  unfold readBytesForLastPeriod
  rw [readLoop_fuel_mono s _ fuel s.mSize _ _ _ h hle]

/-! ## The read loop as a walk over the circular array -/

theorem backDist_predIdx (C i h : Nat) (hi : i < C) (hh : h < C) (hne : i ≠ h) :
    backDist C (predIdx C i) h + 1 = backDist C i h := by
  unfold backDist predIdx
  split_ifs <;> omega

theorem backDist_lt (C i h : Nat) (hi : i < C) (hh : h < C) : backDist C i h < C := by
  unfold backDist
  split_ifs <;> omega

theorem backDist_eq_zero (C i h : Nat) (_hi : i < C) (hh : h < C) :
    backDist C i h = 0 ↔ i = h := by
  unfold backDist
  split_ifs <;> omega

theorem readLoop_total (s : TrafficRecorder Int Int) (hwf : WellFormed s) (c : Int)
    (fuel i : Nat) (acc : Int) (hi : i < s.mSize)
    (hfuel : backDist s.mSize i s.mHeadIdx ≤ fuel) :
    ∃ r, readLoop s c fuel i acc = some r := by
  induction fuel generalizing i acc with
  | zero =>
    have h0 : i = s.mHeadIdx :=
      (backDist_eq_zero s.mSize i s.mHeadIdx hi hwf.2.2.1).1 (by omega)
    rw [h0]
    exact ⟨_, readLoop_at_head s c 0 acc⟩
  | succ n ih =>
    by_cases h0 : i = s.mHeadIdx
    · rw [h0]
      exact ⟨_, readLoop_at_head s c _ acc⟩
    · by_cases hlt : s.mTimeArray i < c
      · exact ⟨_, readLoop_stop s c n i acc h0 hlt⟩
      · rw [readLoop_step s hwf c n i acc hi h0 hlt]
        have hd := backDist_predIdx s.mSize i s.mHeadIdx hi hwf.2.2.1 h0
        exact ih _ _ (predIdx_lt _ _ hi) (by omega)

theorem readLoop_result_dist (s : TrafficRecorder Int Int) (hwf : WellFormed s) (c : Int)
    (fuel i : Nat) (acc : Int) (hi : i < s.mSize) (j : Nat) (v : Int)
    (h : readLoop s c fuel i acc = some (j, v)) :
    j < s.mSize ∧ backDist s.mSize j s.mHeadIdx ≤ backDist s.mSize i s.mHeadIdx := by
  induction fuel generalizing i acc with
  | zero =>
    by_cases h0 : i = s.mHeadIdx
    · rw [h0, readLoop_at_head] at h
      simp only [Option.some.injEq, Prod.mk.injEq] at h
      rw [← h.1, h0]
      exact ⟨hwf.2.2.1, le_refl _⟩
    · unfold readLoop at h
      simp [h0] at h
  | succ n ih =>
    by_cases h0 : i = s.mHeadIdx
    · rw [h0, readLoop_at_head] at h
      simp only [Option.some.injEq, Prod.mk.injEq] at h
      rw [← h.1, h0]
      exact ⟨hwf.2.2.1, le_refl _⟩
    · by_cases hlt : s.mTimeArray i < c
      · rw [readLoop_stop s c n i acc h0 hlt] at h
        simp only [Option.some.injEq, Prod.mk.injEq] at h
        rw [← h.1]
        exact ⟨hi, le_refl _⟩
      · rw [readLoop_step s hwf c n i acc hi h0 hlt] at h
        have hd := backDist_predIdx s.mSize i s.mHeadIdx hi hwf.2.2.1 h0
        obtain ⟨h1, h2⟩ := ih _ _ (predIdx_lt _ _ hi) h
        exact ⟨h1, by omega⟩

theorem readLoop_again (s : TrafficRecorder Int Int) (hwf : WellFormed s) (c1 c2 : Int)
    (hc : c2 ≤ c1) (fuel i : Nat) (acc : Int) (hi : i < s.mSize) (j : Nat) (v : Int)
    (h : readLoop s c1 fuel i acc = some (j, v)) :
    readLoop { s with mHeadIdx := j } c2 fuel i acc = some (j, v) := by
  induction fuel generalizing i acc with
  | zero =>
    by_cases h0 : i = s.mHeadIdx
    · rw [h0, readLoop_at_head] at h
      simp only [Option.some.injEq, Prod.mk.injEq] at h
      rw [h0, h.1, ← h.2]
      exact readLoop_at_head { s with mHeadIdx := j } c2 0 acc
    · unfold readLoop at h
      simp [h0] at h
  | succ n ih =>
    by_cases h0 : i = s.mHeadIdx
    · rw [h0, readLoop_at_head] at h
      simp only [Option.some.injEq, Prod.mk.injEq] at h
      rw [h0, h.1, ← h.2]
      exact readLoop_at_head { s with mHeadIdx := j } c2 _ acc
    · by_cases hlt : s.mTimeArray i < c1
      · rw [readLoop_stop s c1 n i acc h0 hlt] at h
        simp only [Option.some.injEq, Prod.mk.injEq] at h
        rw [h.1, ← h.2]
        exact readLoop_at_head { s with mHeadIdx := j } c2 _ acc
      · rw [readLoop_step s hwf c1 n i acc hi h0 hlt] at h
        have hd := backDist_predIdx s.mSize i s.mHeadIdx hi hwf.2.2.1 h0
        obtain ⟨hj, hdist⟩ := readLoop_result_dist s hwf c1 n _ _ (predIdx_lt _ _ hi) j v h
        have hne : i ≠ j := by
          intro hij
          rw [← hij] at hdist
          omega
        have hwf2 : WellFormed { s with mHeadIdx := j } := ⟨hwf.1, hwf.2.1, hj, hwf.2.2.2⟩
        have hlt2 : ¬ s.mTimeArray i < c2 := by omega
        rw [readLoop_step { s with mHeadIdx := j } hwf2 c2 n i acc hi hne hlt2]
        exact ih _ _ (predIdx_lt _ _ hi) h

theorem read_total (s : TrafficRecorder Int Int) (hwf : WellFormed s) (p : Int) :
    ∃ j v, readLoop s (s.mClock - p) s.mSize s.mTailIdx 0 = some (j, v) ∧
      readBytesForLastPeriod s p = some (v, { s with mHeadIdx := j }) := by
  obtain ⟨⟨j, v⟩, hr⟩ := readLoop_total s hwf (s.mClock - p) s.mSize s.mTailIdx 0 hwf.2.2.2
    (le_of_lt (backDist_lt _ _ _ hwf.2.2.2 hwf.2.2.1))
  exact ⟨j, v, hr, read_of_readLoop s p s.mSize j v hr (le_refl _)⟩

/-! ## The window: what a read can reach -/

theorem walkBack_length (s : TrafficRecorder Int Int) (n i : Nat) :
    (walkBack s n i).length = n := by
  induction n generalizing i with
  | zero => rfl
  | succ n ih => simp [walkBack, ih]

theorem walkBack_updateClock (s : TrafficRecorder Int Int) (t : Int) (n i : Nat) :
    walkBack (updateClock s t) n i = walkBack s n i := by
  induction n generalizing i with
  | zero => rfl
  | succ n ih =>
    simp only [walkBack]
    rw [ih]
    rfl

theorem window_updateClock (s : TrafficRecorder Int Int) (t : Int) :
    window (updateClock s t) = window s :=
  walkBack_updateClock s t _ _

theorem walkBack_take (s : TrafficRecorder Int Int) (m n i : Nat) (hmn : m ≤ n) :
    (walkBack s n i).take m = walkBack s m i := by
  induction m generalizing n i with
  | zero => simp [walkBack]
  | succ m ih =>
    obtain ⟨n2, rfl⟩ : ∃ n2, n = n2 + 1 := ⟨n - 1, by omega⟩
    simp only [walkBack, List.take_succ_cons]
    rw [ih n2 _ (by omega)]

theorem walkBack_congr (s u : TrafficRecorder Int Int) (hsz : u.mSize = s.mSize) (w : Nat)
    (hw : w < s.mSize)
    (htime : ∀ m, m ≠ w → u.mTimeArray m = s.mTimeArray m)
    (hbytes : ∀ m, m ≠ w → u.mBytesArray m = s.mBytesArray m)
    (n i : Nat) (hi : i < s.mSize) (hn : n ≤ backDist s.mSize i w) :
    walkBack u n i = walkBack s n i := by
  induction n generalizing i with
  | zero => rfl
  | succ n ih =>
    have hne : i ≠ w := by
      intro h
      have := (backDist_eq_zero s.mSize i w hi hw).2 h
      omega
    have hd := backDist_predIdx s.mSize i w hi hw hne
    simp only [walkBack]
    rw [htime i hne, hbytes i hne, hsz, ih _ (predIdx_lt _ _ hi) (by omega)]

theorem readLoop_eq_takeWhile (s : TrafficRecorder Int Int) (hwf : WellFormed s) (c : Int)
    (n fuel i : Nat) (acc : Int) (hi : i < s.mSize)
    (hn : backDist s.mSize i s.mHeadIdx = n) (hfuel : n ≤ fuel) :
    (readLoop s c fuel i acc).map Prod.snd =
      some (acc + (((walkBack s n i).takeWhile fun x => decide (c ≤ x.1)).map Prod.snd).sum) := by
  induction n generalizing fuel i acc with
  | zero =>
    have h0 : i = s.mHeadIdx := (backDist_eq_zero s.mSize i s.mHeadIdx hi hwf.2.2.1).1 hn
    rw [h0, readLoop_at_head]
    simp [walkBack]
  | succ n ih =>
    have h0 : i ≠ s.mHeadIdx := by
      intro h
      have := (backDist_eq_zero s.mSize i s.mHeadIdx hi hwf.2.2.1).2 h
      omega
    obtain ⟨f, rfl⟩ : ∃ f, fuel = f + 1 := ⟨fuel - 1, by omega⟩
    have hd := backDist_predIdx s.mSize i s.mHeadIdx hi hwf.2.2.1 h0
    by_cases hlt : s.mTimeArray i < c
    · rw [readLoop_stop s c f i acc h0 hlt]
      have : ¬ c ≤ s.mTimeArray i := by omega
      simp [walkBack, this]
    · rw [readLoop_step s hwf c f i acc hi h0 hlt,
        ih f _ _ (predIdx_lt _ _ hi) (by omega) (by omega)]
      have : c ≤ s.mTimeArray i := by omega
      simp [walkBack, this, add_assoc]

theorem read_eq_window (s : TrafficRecorder Int Int) (hwf : WellFormed s) (p : Int) :
    (readBytesForLastPeriod s p).map Prod.fst =
      some ((((window s).takeWhile fun x => decide (s.mClock - p ≤ x.1)).map Prod.snd).sum) := by
  obtain ⟨j, v, hr, hread⟩ := read_total s hwf p
  have h := readLoop_eq_takeWhile s hwf (s.mClock - p) _ s.mSize s.mTailIdx 0 hwf.2.2.2 rfl
    (le_of_lt (backDist_lt _ _ _ hwf.2.2.2 hwf.2.2.1))
  rw [hr] at h
  rw [hread]
  simpa [window] using h

theorem backDist_succIdx (C i h : Nat) (_hi : i < C) (hh : h < C) (hne : succIdx C i ≠ h) :
    backDist C (succIdx C i) h = backDist C i h + 1 := by
  unfold succIdx at hne ⊢
  unfold backDist
  split_ifs at hne ⊢ <;> omega

theorem backDist_to_succIdx (C i : Nat) (hi : i < C) : backDist C i (succIdx C i) = C - 1 := by
  unfold backDist succIdx
  split_ifs <;> omega

theorem predIdx_succIdx (C i : Nat) (_hi : i < C) : predIdx C (succIdx C i) = i := by
  by_cases h : i + 1 = C
  · simp only [predIdx, succIdx, h, if_true]; omega
  · simp only [predIdx, succIdx, h, if_false]
    rw [if_neg (by omega)]; omega

theorem window_writeBytes_append (s : TrafficRecorder Int Int) (hwf : WellFormed s) (b : Int)
    (hc : s.mClock ≠ s.mTimeArray s.mTailIdx) :
    window (writeBytes s b) = ((s.mClock, b) :: window s).take (s.mSize - 1) := by
  have hH := hwf.2.2.1
  have hT := hwf.2.2.2
  have hW := succIdx_lt s.mSize s.mTailIdx hT
  have hfr : ∀ n, n ≤ s.mSize - 1 →
      walkBack (writeBytes s b) n s.mTailIdx = walkBack s n s.mTailIdx := by
    intro n hn
    apply walkBack_congr s (writeBytes s b) (by rw [writeBytes_append s hwf b hc])
      (succIdx s.mSize s.mTailIdx) hW
    · intro m hm
      rw [writeBytes_append s hwf b hc]
      exact Function.update_noteq hm _ _
    · intro m hm
      rw [writeBytes_append s hwf b hc]
      exact Function.update_noteq hm _ _
    · exact hT
    · rw [backDist_to_succIdx _ _ hT]; exact hn
  have hsz : (writeBytes s b).mSize = s.mSize := by rw [writeBytes_append s hwf b hc]
  have htl : (writeBytes s b).mTailIdx = succIdx s.mSize s.mTailIdx := by
    rw [writeBytes_append s hwf b hc]
  have htm : (writeBytes s b).mTimeArray (succIdx s.mSize s.mTailIdx) = s.mClock := by
    rw [writeBytes_append s hwf b hc]; exact Function.update_same _ _ _
  have hby : (writeBytes s b).mBytesArray (succIdx s.mSize s.mTailIdx) = b := by
    rw [writeBytes_append s hwf b hc]; exact Function.update_same _ _ _
  have hpred := predIdx_succIdx s.mSize s.mTailIdx hT
  have hdlt := backDist_lt s.mSize s.mTailIdx s.mHeadIdx hT hH
  by_cases hfull : succIdx s.mSize s.mTailIdx = s.mHeadIdx
  · have hhd : (writeBytes s b).mHeadIdx = succIdx s.mSize s.mHeadIdx := by
      rw [writeBytes_append s hwf b hc]; simp only [hfull, if_true]
    have hd : backDist s.mSize s.mTailIdx s.mHeadIdx = s.mSize - 1 := by
      rw [← hfull]; exact backDist_to_succIdx _ _ hT
    have hd2 : backDist s.mSize (succIdx s.mSize s.mTailIdx) (succIdx s.mSize s.mHeadIdx)
        = s.mSize - 1 := by
      rw [hfull]; exact backDist_to_succIdx _ _ hH
    unfold window
    rw [hsz, htl, hhd, hd, hd2]
    cases hm : s.mSize - 1 with
    | zero => simp [walkBack]
    | succ m =>
      rw [List.take_succ_cons, walkBack_take s m (m + 1) _ (by omega)]
      simp only [walkBack]
      rw [htm, hby, hsz, hpred, hfr m (by omega)]
  · have hhd : (writeBytes s b).mHeadIdx = s.mHeadIdx := by
      rw [writeBytes_append s hwf b hc]; simp only [hfull, if_false]
    have hd := backDist_succIdx s.mSize s.mTailIdx s.mHeadIdx hT hH hfull
    have hd3 := backDist_lt s.mSize (succIdx s.mSize s.mTailIdx) s.mHeadIdx hW hH
    unfold window
    rw [hsz, htl, hhd, hd]
    simp only [walkBack]
    rw [htm, hby, hsz, hpred, hfr _ (by omega)]
    rw [List.take_of_length_le]
    simp only [List.length_cons, walkBack_length]
    omega

theorem window_writeBytes_coalesce (s : TrafficRecorder Int Int) (hwf : WellFormed s) (b : Int)
    (hc : s.mClock = s.mTimeArray s.mTailIdx) (hne : s.mTailIdx ≠ s.mHeadIdx) :
    window (writeBytes s b) =
      (s.mClock, s.mBytesArray s.mTailIdx + b) :: (window s).tail := by
  have hH := hwf.2.2.1
  have hT := hwf.2.2.2
  have hP := predIdx_lt s.mSize s.mTailIdx hT
  have hsz : (writeBytes s b).mSize = s.mSize := by rw [writeBytes_coalesce s hwf b hc]
  have htl : (writeBytes s b).mTailIdx = s.mTailIdx := by rw [writeBytes_coalesce s hwf b hc]
  have hhd : (writeBytes s b).mHeadIdx = s.mHeadIdx := by
    rw [writeBytes_coalesce s hwf b hc]; simp only [hne, if_false]
  have htm : (writeBytes s b).mTimeArray s.mTailIdx = s.mClock := by
    rw [writeBytes_coalesce s hwf b hc]; exact hc.symm
  have hby : (writeBytes s b).mBytesArray s.mTailIdx = s.mBytesArray s.mTailIdx + b := by
    rw [writeBytes_coalesce s hwf b hc]; exact Function.update_same _ _ _
  have hd := backDist_predIdx s.mSize s.mTailIdx s.mHeadIdx hT hH hne
  have hdlt := backDist_lt s.mSize s.mTailIdx s.mHeadIdx hT hH
  have hdp : backDist s.mSize (predIdx s.mSize s.mTailIdx) s.mTailIdx = s.mSize - 1 := by
    unfold backDist predIdx
    split_ifs <;> omega
  unfold window
  rw [hsz, htl, hhd, ← hd]
  simp only [walkBack, List.tail_cons]
  rw [htm, hby, hsz]
  congr 1
  apply walkBack_congr s (writeBytes s b) hsz s.mTailIdx hT
  · intro m hm
    rw [writeBytes_coalesce s hwf b hc]
  · intro m hm
    rw [writeBytes_coalesce s hwf b hc]
    exact Function.update_noteq hm _ _
  · exact hP
  · rw [hdp]; omega

/-! ## Writes at strictly increasing clock values -/

theorem take_cons_take {α : Type} (x : α) (l : List α) (n : Nat) :
    (x :: l.take n).take n = (x :: l).take n := by
  cases n with
  | zero => rfl
  | succ m => simp [List.take_take]

theorem window_recordAll (s : TrafficRecorder Int Int) (hwf : WellFormed s)
    (L : List (Int × Int)) (last : Int) (ws : List (Int × Int))
    (hwin : window s = L.take (s.mSize - 1))
    (hlast : s.mTimeArray s.mTailIdx = last)
    (hinc : List.Chain (· < ·) last (ws.map Prod.fst)) :
    WellFormed (recordAll s ws) ∧ (recordAll s ws).mSize = s.mSize ∧
      window (recordAll s ws) = (ws.reverse ++ L).take (s.mSize - 1) := by
  induction ws generalizing s L last with
  | nil => exact ⟨hwf, rfl, by simpa using hwin⟩
  | cons w r ih =>
    obtain ⟨t, b⟩ := w
    simp only [List.map_cons, List.chain_cons] at hinc
    obtain ⟨hlt, hch⟩ := hinc
    have hwfu : WellFormed (updateClock s t) := updateClock_wellFormed s hwf t
    have hne : (updateClock s t).mClock ≠ (updateClock s t).mTimeArray (updateClock s t).mTailIdx := by
      show t ≠ s.mTimeArray s.mTailIdx
      rw [hlast]; omega
    have hw1 : window (recordAt s (t, b)) = ((t, b) :: L).take (s.mSize - 1) := by
      show window (writeBytes (updateClock s t) b) = _
      rw [window_writeBytes_append (updateClock s t) hwfu b hne]
      rw [window_updateClock]
      change List.take (s.mSize - 1) ((t, b) :: window s) = List.take (s.mSize - 1) ((t, b) :: L)
      rw [hwin, take_cons_take]
    have hwf1 := recordAt_wellFormed s hwf (t, b)
    have e1 := recordAt_append s hwf t b (by rw [hlast]; omega)
    have hsz1 : (recordAt s (t, b)).mSize = s.mSize := by rw [e1]
    have hlast1 : (recordAt s (t, b)).mTimeArray (recordAt s (t, b)).mTailIdx = t := by
      rw [e1]; exact Function.update_same _ _ _
    rw [← hsz1] at hw1
    obtain ⟨h1, h2, h3⟩ := ih (recordAt s (t, b)) hwf1 ((t, b) :: L) t hw1 hlast1 hch
    refine ⟨h1, by rw [← hsz1]; exact h2, ?_⟩
    show window (recordAll (recordAt s (t, b)) r) = _
    rw [h3, hsz1]
    simp

theorem window_ctor (k : Nat) (tm bm : Nat → Int) : window (ctor k tm bm) = [] := by
  have h : backDist (ctor k tm bm).mSize (ctor k tm bm).mTailIdx (ctor k tm bm).mHeadIdx = 0 :=
    (backDist_eq_zero _ _ _ (ctor_wellFormed k tm bm).2.2.2 (ctor_wellFormed k tm bm).2.2.1).2 rfl
  unfold window
  rw [h]
  rfl

theorem read_after_recordAll (k : Nat) (tm bm : Nat → Int) (ws : List (Int × Int)) (p : Int)
    (hinc : (ws.map Prod.fst).Pairwise (· < ·)) (hpos : ∀ w ∈ ws, 0 < w.1)
    (hcover : ∀ w ∈ ws, (recordAll (ctor k tm bm) ws).mClock - p ≤ w.1) :
    (readBytesForLastPeriod (recordAll (ctor k tm bm) ws) p).map Prod.fst =
      some (((ws.reverse.take ((ctor k tm bm).mSize - 1)).map Prod.snd).sum) := by
  have hch : List.Chain (· < ·) (0 : Int) (ws.map Prod.fst) := by
    rw [List.chain_iff_pairwise, List.pairwise_cons]
    refine ⟨fun a ha => ?_, hinc⟩
    obtain ⟨w, hw, rfl⟩ := List.mem_map.1 ha
    exact hpos w hw
  have htm0 : (ctor k tm bm).mTimeArray (ctor k tm bm).mTailIdx = 0 := by
    simp [ctor, init]
  obtain ⟨hwf, -, hwin⟩ := window_recordAll (ctor k tm bm) (ctor_wellFormed k tm bm) [] 0 ws
    (by rw [window_ctor]; simp) htm0 hch
  have htw : List.takeWhile
      (fun x : Int × Int => decide ((recordAll (ctor k tm bm) ws).mClock - p ≤ x.1))
      (List.take ((ctor k tm bm).mSize - 1) ws.reverse) =
      List.take ((ctor k tm bm).mSize - 1) ws.reverse := by
    rw [List.takeWhile_eq_self_iff]
    intro x hx
    have hx2 : x ∈ ws := List.mem_reverse.1 (List.mem_of_mem_take hx)
    exact decide_eq_true (hcover x hx2)
  rw [read_eq_window _ hwf, hwin, List.append_nil, htw]

/-! ## Writes at non-decreasing clock values without overflow -/

theorem sumFrom_nil (c : Int) : sumFrom c [] = 0 := rfl

theorem sumFrom_cons (c : Int) (x : Int × Int) (l : List (Int × Int)) :
    sumFrom c (x :: l) = (if c ≤ x.1 then x.2 else 0) + sumFrom c l := by
  unfold sumFrom
  by_cases h : c ≤ x.1
  · simp [List.filter_cons, h]
  · simp [List.filter_cons, h]

theorem sumFrom_append (c : Int) (l1 l2 : List (Int × Int)) :
    sumFrom c (l1 ++ l2) = sumFrom c l1 + sumFrom c l2 := by
  unfold sumFrom
  simp [List.filter_append]

theorem takeWhile_eq_filter_of_decreasing (c : Int) (l : List (Int × Int))
    (h : (l.map Prod.fst).Pairwise (· > ·)) :
    (l.takeWhile fun x => decide (c ≤ x.1)) = l.filter fun x => decide (c ≤ x.1) := by
  induction l with
  | nil => rfl
  | cons x xs ih =>
    simp only [List.map_cons, List.pairwise_cons] at h
    by_cases hx : c ≤ x.1
    · simp only [List.takeWhile_cons, List.filter_cons, hx, decide_True, if_true]
      rw [ih h.2]
    · have hnil : (xs.filter fun y => decide (c ≤ y.1)) = [] := by
        rw [List.filter_eq_nil_iff]
        intro y hy
        have := h.1 y.1 (List.mem_map_of_mem _ hy)
        simp only [decide_eq_true_eq]
        omega
      simp only [List.takeWhile_cons, List.filter_cons, hx, decide_False, hnil]
      rfl

theorem window_cons_of_ne (s : TrafficRecorder Int Int) (hwf : WellFormed s)
    (hne : s.mTailIdx ≠ s.mHeadIdx) :
    window s = (s.mTimeArray s.mTailIdx, s.mBytesArray s.mTailIdx) :: (window s).tail := by
  have hd := backDist_predIdx s.mSize s.mTailIdx s.mHeadIdx hwf.2.2.2 hwf.2.2.1 hne
  unfold window
  rw [← hd]
  rfl

theorem window_nil_of_eq (s : TrafficRecorder Int Int) (hwf : WellFormed s)
    (heq : s.mTailIdx = s.mHeadIdx) : window s = [] := by
  have h := (backDist_eq_zero s.mSize _ _ hwf.2.2.2 hwf.2.2.1).2 heq
  unfold window
  rw [h]
  rfl

theorem window_length (s : TrafficRecorder Int Int) :
    (window s).length = backDist s.mSize s.mTailIdx s.mHeadIdx :=
  walkBack_length s _ _

theorem length_le_card_of_subset (l m : List Int) (hnd : l.Nodup)
    (hsub : ∀ x ∈ l, x ∈ m) : l.length ≤ m.toFinset.card := by
  rw [← List.toFinset_card_of_nodup hnd]
  apply Finset.card_le_card
  intro x hx
  rw [List.mem_toFinset] at hx ⊢
  exact hsub x hx

theorem windowInv_updateClock (s : TrafficRecorder Int Int) (L : List (Int × Int)) (t : Int)
    (hinv : WindowInv s L) (hle : s.mClock ≤ t) : WindowInv (updateClock s t) L := by
  obtain ⟨h1, h2, h3, h4, h5, h6, h7⟩ := hinv
  refine ⟨updateClock_wellFormed s h1 t, h2, h3, ?_, ?_, ?_, ?_⟩
  · rw [window_updateClock]; exact h4
  · rw [window_updateClock]
    intro x hx
    have := h5 x hx
    exact ⟨this.1, le_trans this.2 hle⟩
  · rw [window_updateClock]; exact h6
  · rw [window_updateClock]; exact h7

theorem windowInv_writeBytes (s : TrafficRecorder Int Int) (L : List (Int × Int)) (b : Int)
    (hinv : WindowInv s L) (hpos : 0 < s.mClock)
    (hcard : ((L ++ [(s.mClock, b)]).map Prod.fst).toFinset.card < s.mSize) :
    WindowInv (writeBytes s b) (L ++ [(s.mClock, b)]) ∧
      (writeBytes s b).mSize = s.mSize ∧ (writeBytes s b).mClock = s.mClock := by
  obtain ⟨hwf, hh, h0, hsorted, hbound, hmem, hsum⟩ := hinv
  have hT := hwf.2.2.2
  have hwf2 := writeBytes_wellFormed s hwf b
  by_cases hc : s.mClock = s.mTimeArray s.mTailIdx
  · have hne : s.mTailIdx ≠ s.mHeadIdx := by
      intro h
      rw [h, hh, h0] at hc
      omega
    obtain ⟨rest, hrest⟩ : ∃ rest, window s =
        (s.mTimeArray s.mTailIdx, s.mBytesArray s.mTailIdx) :: rest :=
      ⟨_, window_cons_of_ne s hwf hne⟩
    have hw2 := window_writeBytes_coalesce s hwf b hc hne
    rw [hrest, List.tail_cons] at hw2
    have e := writeBytes_coalesce s hwf b hc
    have hclk : (writeBytes s b).mClock = s.mClock := by rw [e]
    rw [hrest] at hsorted hbound hmem hsum
    refine ⟨⟨hwf2, ?_, ?_, ?_, ?_, ?_, ?_⟩, by rw [e], hclk⟩
    · rw [e]; simp only [hne, if_false]; exact hh
    · rw [e]; exact h0
    · rw [hw2]
      simp only [List.map_cons] at hsorted ⊢
      rw [hc]; exact hsorted
    · rw [hw2, hclk]
      intro x hx
      rcases List.mem_cons.1 hx with rfl | hx
      · exact ⟨hpos, le_refl _⟩
      · exact hbound x (List.mem_cons_of_mem _ hx)
    · rw [hw2]
      intro x hx
      rw [List.map_append, List.mem_append]
      rcases List.mem_cons.1 hx with rfl | hx
      · right; simp
      · left; exact hmem x (List.mem_cons_of_mem _ hx)
    · intro c
      have := hsum c
      rw [sumFrom_cons] at this
      rw [hw2, sumFrom_cons, sumFrom_append, sumFrom_cons, sumFrom_nil, ← this]
      simp only [← hc]
      split_ifs <;> omega
  · have hlt : ∀ x ∈ window s, x.1 < s.mClock := by
      intro x hx
      have hne : s.mTailIdx ≠ s.mHeadIdx := by
        intro h
        rw [window_nil_of_eq s hwf h] at hx
        exact List.not_mem_nil _ hx
      have hw := window_cons_of_ne s hwf hne
      have hb := hbound _ (by rw [hw]; exact List.mem_cons_self _ _)
      have hb1 : s.mTimeArray s.mTailIdx < s.mClock := by
        have : s.mTimeArray s.mTailIdx ≤ s.mClock := hb.2
        omega
      rw [hw] at hx hsorted
      rcases List.mem_cons.1 hx with rfl | hx
      · exact hb1
      · simp only [List.map_cons, List.pairwise_cons] at hsorted
        have := hsorted.1 x.1 (List.mem_map_of_mem _ hx)
        omega
    have hnd : (s.mClock :: (window s).map Prod.fst).Pairwise (· > ·) := by
      rw [List.pairwise_cons]
      refine ⟨fun a ha => ?_, hsorted⟩
      obtain ⟨x, hx, rfl⟩ := List.mem_map.1 ha
      exact hlt x hx
    have hlen : (s.mClock :: (window s).map Prod.fst).length ≤
        ((L ++ [(s.mClock, b)]).map Prod.fst).toFinset.card := by
      apply length_le_card_of_subset _ _ (hnd.imp fun hab => ne_of_gt hab)
      intro a ha
      rw [List.map_append, List.mem_append]
      rcases List.mem_cons.1 ha with rfl | ha
      · right; simp
      · left
        obtain ⟨x, hx, rfl⟩ := List.mem_map.1 ha
        exact hmem x hx
    have hwl : (window s).length = s.mTailIdx := by
      rw [window_length, hh]
      unfold backDist
      simp
    simp only [List.length_cons, List.length_map] at hlen
    have hsucc : succIdx s.mSize s.mTailIdx = s.mTailIdx + 1 := by
      unfold succIdx
      rw [if_neg (by omega)]
    have hfull : succIdx s.mSize s.mTailIdx ≠ s.mHeadIdx := by rw [hsucc, hh]; omega
    have hw2 := window_writeBytes_append s hwf b hc
    rw [List.take_of_length_le (by simp only [List.length_cons]; omega)] at hw2
    have e := writeBytes_append s hwf b hc
    have hclk : (writeBytes s b).mClock = s.mClock := by rw [e]
    refine ⟨⟨hwf2, ?_, ?_, ?_, ?_, ?_, ?_⟩, by rw [e], hclk⟩
    · rw [e]; simp only [hfull, if_false]; exact hh
    · rw [e]
      show Function.update s.mTimeArray (succIdx s.mSize s.mTailIdx) s.mClock 0 = 0
      rw [Function.update_noteq (by rw [hsucc]; omega)]
      exact h0
    · rw [hw2]; exact hnd
    · rw [hw2, hclk]
      intro x hx
      rcases List.mem_cons.1 hx with rfl | hx
      · exact ⟨hpos, le_refl _⟩
      · exact hbound x hx
    · rw [hw2]
      intro x hx
      rw [List.map_append, List.mem_append]
      rcases List.mem_cons.1 hx with rfl | hx
      · right; simp
      · left; exact hmem x hx
    · intro c
      rw [hw2, sumFrom_cons, sumFrom_append, sumFrom_cons, sumFrom_nil, hsum c]
      omega

theorem run_windowInv (calls : List Call) (s : TrafficRecorder Int Int)
    (L : List (Int × Int)) (hinv : WindowInv s L)
    (hmono : (clockTrace s.mClock calls).Pairwise (· ≤ ·))
    (hbnd : ∀ t ∈ clockTrace s.mClock calls, s.mClock ≤ t ∧ 0 < t)
    (hcard : ((L ++ written s.mClock calls).map Prod.fst).toFinset.card < s.mSize) :
    WindowInv (run s calls) (L ++ written s.mClock calls) ∧
      (run s calls).mClock = finalClock s.mClock calls := by
  induction calls generalizing s L with
  | nil =>
    refine ⟨?_, rfl⟩
    show WindowInv s (L ++ [])
    rw [List.append_nil]; exact hinv
  | cons op r ih =>
    cases op with
    | AdvanceClock now =>
      simp only [clockTrace, List.pairwise_cons, List.mem_cons, forall_eq_or_imp] at hmono hbnd
      have hinv2 := windowInv_updateClock s L now hinv hbnd.1.1
      exact ih (updateClock s now) L hinv2 hmono.2
        (fun t ht => ⟨hmono.1 t ht, (hbnd.2 t ht).2⟩) hcard
    | RecordBytes b =>
      simp only [clockTrace, List.pairwise_cons, List.mem_cons, forall_eq_or_imp] at hmono hbnd
      have happ : L ++ written s.mClock (Call.RecordBytes b :: r) =
          (L ++ [(s.mClock, b)]) ++ written s.mClock r := by
        simp [written]
      rw [happ] at hcard ⊢
      have hcard1 : ((L ++ [(s.mClock, b)]).map Prod.fst).toFinset.card < s.mSize := by
        refine lt_of_le_of_lt (Finset.card_le_card ?_) hcard
        intro x hx
        rw [List.mem_toFinset] at hx ⊢
        rw [List.map_append]
        exact List.mem_append_left _ hx
      obtain ⟨hinv2, hsz, hclk⟩ := windowInv_writeBytes s L b hinv hbnd.1.2 hcard1
      have := ih (writeBytes s b) (L ++ [(s.mClock, b)]) hinv2
        (by rw [hclk]; exact hmono.2) (by rw [hclk]; exact hbnd.2)
        (by rw [hclk, hsz]; exact hcard)
      rw [hclk] at this
      exact this

theorem windowInv_ctor (k : Nat) (tm bm : Nat → Int) : WindowInv (ctor k tm bm) [] := by
  refine ⟨ctor_wellFormed k tm bm, rfl, by simp [ctor, init], ?_, ?_, ?_, ?_⟩
  · rw [window_ctor]; exact List.Pairwise.nil
  · rw [window_ctor]; intro x hx; exact absurd hx (List.not_mem_nil _)
  · rw [window_ctor]; intro x hx; exact absurd hx (List.not_mem_nil _)
  · rw [window_ctor]; intro c; rfl

/-! ## The state of the window examples -/

theorem ctor_mSize_ge {Time Bytes : Type} [Zero Time] [Zero Bytes] (k : Nat)
    (tm : Nat → Time) (bm : Nat → Bytes) (hk : k ≤ 2 ^ 32) : k ≤ (ctor k tm bm).mSize := by
  obtain ⟨-, h2, h3, -⟩ := ctorExp_spec k 32 0
  have hle : ctorExp k 32 0 ≤ 32 := by omega
  rw [ctor_mSize]
  by_cases hlt : ctorExp k 32 0 < 0 + 32
  · have := h3 hlt
    rwa [shl_one_mod _ hle] at this
  · have h32 : ctorExp k 32 0 = 32 := by omega
    rw [h32]; exact hk

theorem ctor_mSize_big {Time Bytes : Type} [Zero Time] [Zero Bytes] (k : Nat)
    (tm : Nat → Time) (bm : Nat → Bytes) (hk : 2 ^ 32 < k) :
    (ctor k tm bm).mSize = 2 ^ 32 := by
  obtain ⟨-, h2, h3, -⟩ := ctorExp_spec k 32 0
  have hle : ctorExp k 32 0 ≤ 32 := by omega
  rw [ctor_mSize]
  by_cases hlt : ctorExp k 32 0 < 0 + 32
  · have h5 := h3 hlt
    rw [shl_one_mod _ hle] at h5
    have h6 : 2 ^ ctorExp k 32 0 ≤ 2 ^ 32 := Nat.pow_le_pow_right (by decide) hle
    omega
  · have h32 : ctorExp k 32 0 = 32 := by omega
    rw [h32]

theorem ctor_mSize_ge_four {Time Bytes : Type} [Zero Time] [Zero Bytes] (k : Nat)
    (tm : Nat → Time) (bm : Nat → Bytes) (hk : 4 ≤ k) : 4 ≤ (ctor k tm bm).mSize := by
  by_cases h : k ≤ 2 ^ 32
  · exact le_trans hk (ctor_mSize_ge k tm bm h)
  · rw [ctor_mSize_big k tm bm (by omega)]; norm_num

theorem windowExample_fields (k : Nat) (hk : 4 ≤ k) (tm bm : Nat → Int) :
    WellFormed (windowExample k tm bm) ∧
      (windowExample k tm bm).mSize = (ctor k tm bm).mSize ∧
      (windowExample k tm bm).mTailIdx = 3 ∧
      (windowExample k tm bm).mHeadIdx = succIdx (ctor k tm bm).mSize 3 ∧
      (windowExample k tm bm).mClock = 30 ∧
      (windowExample k tm bm).mTimeArray 3 = 30 ∧
      (windowExample k tm bm).mTimeArray 2 = 20 ∧
      (windowExample k tm bm).mTimeArray 1 = 10 ∧
      (windowExample k tm bm).mBytesArray 3 = 5 ∧
      (windowExample k tm bm).mBytesArray 2 = 5 ∧
      (windowExample k tm bm).mBytesArray 1 = 5 := by
  have hC := ctor_mSize_ge_four k tm bm hk
  have hwf0 := ctor_wellFormed k tm bm
  unfold windowExample recordAll
  simp only [List.foldl]
  generalize hs0 : ctor k tm bm = s0 at hwf0 hC ⊢
  have hh0 : s0.mHeadIdx = 0 := by rw [← hs0]; rfl
  have ht0 : s0.mTailIdx = 0 := by rw [← hs0]; rfl
  have htm0 : s0.mTimeArray 0 = 0 := by rw [← hs0]; simp [ctor, init]
  have e1 := recordAt_coalesce s0 hwf0 0 5 (by rw [ht0, htm0])
  have hwf1 := recordAt_wellFormed s0 hwf0 (0, 5)
  generalize recordAt s0 (0, 5) = s1 at e1 hwf1 ⊢
  have hsz1 : s1.mSize = s0.mSize := by rw [e1]
  have hh1 : s1.mHeadIdx = 1 := by
    rw [e1]; simp only [ht0, hh0, if_true, succIdx]; split_ifs <;> omega
  have ht1 : s1.mTailIdx = 0 := by rw [e1]; exact ht0
  have htm1 : s1.mTimeArray 0 = 0 := by rw [e1]; exact htm0
  have e2 := recordAt_append s1 hwf1 10 5 (by rw [ht1, htm1]; decide)
  have hwf2 := recordAt_wellFormed s1 hwf1 (10, 5)
  generalize recordAt s1 (10, 5) = s2 at e2 hwf2 ⊢
  have hsucc0 : succIdx s0.mSize 0 = 1 := by unfold succIdx; split_ifs <;> omega
  have hsucc1 : succIdx s0.mSize 1 = 2 := by unfold succIdx; split_ifs <;> omega
  have hsucc2 : succIdx s0.mSize 2 = 3 := by unfold succIdx; split_ifs <;> omega
  rw [hsz1, ht1, hh1, hsucc0, hsucc1] at e2
  simp only [if_true] at e2
  have hsz2 : s2.mSize = s0.mSize := by rw [e2]
  have hh2 : s2.mHeadIdx = 2 := by rw [e2]
  have ht2 : s2.mTailIdx = 1 := by rw [e2]
  have htm2 : s2.mTimeArray 1 = 10 := by rw [e2]; simp
  have hb2 : s2.mBytesArray 1 = 5 := by rw [e2]; simp
  have e3 := recordAt_append s2 hwf2 20 5 (by rw [ht2, htm2]; decide)
  have hwf3 := recordAt_wellFormed s2 hwf2 (20, 5)
  generalize recordAt s2 (20, 5) = s3 at e3 hwf3 ⊢
  rw [hsz2, ht2, hh2, hsucc1, hsucc2] at e3
  simp only [if_true] at e3
  have hsz3 : s3.mSize = s0.mSize := by rw [e3]
  have hh3 : s3.mHeadIdx = 3 := by rw [e3]
  have ht3 : s3.mTailIdx = 2 := by rw [e3]
  have htm3 : s3.mTimeArray 2 = 20 ∧ s3.mTimeArray 1 = 10 := by
    rw [e3]; simp [htm2]
  have hb3 : s3.mBytesArray 2 = 5 ∧ s3.mBytesArray 1 = 5 := by
    rw [e3]; simp [hb2]
  have e4 := recordAt_append s3 hwf3 30 5 (by rw [ht3, htm3.1]; decide)
  have hwf4 := recordAt_wellFormed s3 hwf3 (30, 5)
  generalize recordAt s3 (30, 5) = s4 at e4 hwf4 ⊢
  rw [hsz3, ht3, hh3, hsucc2] at e4
  simp only [if_true] at e4
  refine ⟨hwf4, ?_, ?_, ?_, ?_, ?_, ?_, ?_, ?_, ?_, ?_⟩ <;> rw [e4]
  · simp
  · simp [htm3.1]
  · simp [htm3.2]
  · simp
  · simp [hb3.1]
  · simp [hb3.2]

theorem windowExample_read15 (k : Nat) (hk : 4 ≤ k) (tm bm : Nat → Int) :
    readBytesForLastPeriod (windowExample k tm bm) 15 =
      some (10, { windowExample k tm bm with mHeadIdx := 1 }) := by
  obtain ⟨hwf, hsz, ht, hh, hcl, t3, t2, t1, b3, b2, b1⟩ := windowExample_fields k hk tm bm
  have hC := ctor_mSize_ge_four k tm bm hk
  rw [← hsz] at hC hh
  generalize windowExample k tm bm = s at *
  have hne : ∀ i, 0 < i → i < 4 → i ≠ s.mHeadIdx := by
    intro i hi0 hi; rw [hh]; unfold succIdx; split_ifs <;> omega
  have hp3 : predIdx s.mSize 3 = 2 := by unfold predIdx; simp
  have hp2 : predIdx s.mSize 2 = 1 := by unfold predIdx; simp
  apply read_of_readLoop s 15 3 1 10 _ (by omega)
  rw [ht, hcl]
  rw [readLoop_step s hwf _ 2 3 0 (by omega) (hne 3 (by omega) (by omega)) (by rw [t3]; decide), hp3, b3]
  rw [readLoop_step s hwf _ 1 2 _ (by omega) (hne 2 (by omega) (by omega)) (by rw [t2]; decide), hp2, b2]
  rw [readLoop_stop s _ 0 1 _ (hne 1 (by omega) (by omega)) (by rw [t1]; decide)]
  rfl

theorem windowExample_read5 (k : Nat) (hk : 4 ≤ k) (tm bm : Nat → Int) :
    readBytesForLastPeriod (windowExample k tm bm) 5 =
      some (5, { windowExample k tm bm with mHeadIdx := 2 }) := by
  obtain ⟨hwf, hsz, ht, hh, hcl, t3, t2, t1, b3, b2, b1⟩ := windowExample_fields k hk tm bm
  have hC := ctor_mSize_ge_four k tm bm hk
  rw [← hsz] at hC hh
  generalize windowExample k tm bm = s at *
  have hne : ∀ i, 0 < i → i < 4 → i ≠ s.mHeadIdx := by
    intro i hi0 hi; rw [hh]; unfold succIdx; split_ifs <;> omega
  have hp3 : predIdx s.mSize 3 = 2 := by unfold predIdx; simp
  apply read_of_readLoop s 5 2 2 5 _ (by omega)
  rw [ht, hcl]
  rw [readLoop_step s hwf _ 1 3 0 (by omega) (hne 3 (by omega) (by omega)) (by rw [t3]; decide), hp3, b3]
  rw [readLoop_stop s _ 0 2 _ (hne 2 (by omega) (by omega)) (by rw [t2]; decide)]
  rfl

theorem windowExample_read100_after_read5 (k : Nat) (hk : 4 ≤ k) (tm bm : Nat → Int) :
    readBytesForLastPeriod { windowExample k tm bm with mHeadIdx := 2 } 100 =
      some (5, { windowExample k tm bm with mHeadIdx := 2 }) := by
  obtain ⟨hwf, hsz, ht, hh, hcl, t3, t2, t1, b3, b2, b1⟩ := windowExample_fields k hk tm bm
  have hC := ctor_mSize_ge_four k tm bm hk
  rw [← hsz] at hC hh
  generalize windowExample k tm bm = s at *
  have hwf2 : WellFormed { s with mHeadIdx := 2 } :=
    ⟨hwf.1, hwf.2.1, by show 2 < s.mSize; omega, hwf.2.2.2⟩
  have hp3 : predIdx s.mSize 3 = 2 := by unfold predIdx; simp
  generalize hu : ({ s with mHeadIdx := 2 } : TrafficRecorder Int Int) = u at hwf2 ⊢
  have usz : u.mSize = s.mSize := by rw [← hu]
  have uh : u.mHeadIdx = 2 := by rw [← hu]
  have uhh : { u with mHeadIdx := 2 } = u := by rw [← hu]
  have ut : u.mTailIdx = 3 := by rw [← hu]; exact ht
  have ucl : u.mClock = 30 := by rw [← hu]; exact hcl
  have ut3 : u.mTimeArray 3 = 30 := by rw [← hu]; exact t3
  have ub3 : u.mBytesArray 3 = 5 := by rw [← hu]; exact b3
  have key := read_of_readLoop u 100 1 2 5 (by
    rw [ut, ucl]
    rw [readLoop_step u hwf2 _ 0 3 0 (by omega) (by omega) (by rw [ut3]; decide), usz, hp3, ub3]
    rw [← uh]
    exact readLoop_at_head u _ _ _) (by omega)
  rw [key, uhh]

theorem windowExample_read100_capacity4 (tm bm : Nat → Int) :
    readBytesForLastPeriod (windowExample 4 tm bm) 100 =
      some (15, { windowExample 4 tm bm with mHeadIdx := 0 }) := by
  obtain ⟨hwf, hsz, ht, hh, hcl, t3, t2, t1, b3, b2, b1⟩ :=
    windowExample_fields 4 (le_refl _) tm bm
  have hC : (ctor 4 tm bm).mSize = 4 := rfl
  rw [hC] at hsz hh
  generalize windowExample 4 tm bm = s at *
  have hh0 : s.mHeadIdx = 0 := by rw [hh]; rfl
  have hp3 : predIdx s.mSize 3 = 2 := by unfold predIdx; simp
  have hp2 : predIdx s.mSize 2 = 1 := by unfold predIdx; simp
  have hp1 : predIdx s.mSize 1 = 0 := by unfold predIdx; simp
  apply read_of_readLoop s 100 3 0 15 _ (by omega)
  rw [ht, hcl]
  rw [readLoop_step s hwf _ 2 3 0 (by omega) (by omega) (by rw [t3]; decide), hp3, b3]
  rw [readLoop_step s hwf _ 1 2 _ (by omega) (by omega) (by rw [t2]; decide), hp2, b2]
  rw [readLoop_step s hwf _ 0 1 _ (by omega) (by omega) (by rw [t1]; decide), hp1, b1]
  rw [← hh0]
  exact readLoop_at_head s _ _ _

/-! ## Sequences of arbitrary calls -/

theorem init_wellFormed (s : TrafficRecorder Int Int) (hwf : WellFormed s) :
    WellFormed (init s) := by
  obtain ⟨⟨e, he, hC⟩, hM, hH, -⟩ := hwf
  exact ⟨⟨e, he, hC⟩, hM, by show 0 < s.mSize; omega, by show 0 < s.mSize; omega⟩

theorem printAccuBitsForLastPeriod_wellFormed (s : TrafficRecorder Int Int)
    (hwf : WellFormed s) (p u : Int) : WellFormed (printAccuBitsForLastPeriod s p u) := by
  unfold printAccuBitsForLastPeriod
  simp only
  split
  · exact init_wellFormed _ hwf
  · exact hwf

theorem read_spec (s : TrafficRecorder Int Int) (hwf : WellFormed s) (p : Int) :
    ∃ j v, readBytesForLastPeriod s p = some (v, { s with mHeadIdx := j }) ∧ j < s.mSize := by
  obtain ⟨j, v, hr, hread⟩ := read_total s hwf p
  exact ⟨j, v, hread, (readLoop_result_dist s hwf _ _ _ _ hwf.2.2.2 j v hr).1⟩

theorem writeBytes_accu (s : TrafficRecorder Int Int) (b : Int) :
    (writeBytes s b).mAccuBytesOfPrint = s.mAccuBytesOfPrint + b ∧
      (writeBytes s b).mClock = s.mClock ∧
      (writeBytes s b).mLastTimeOfPrint = s.mLastTimeOfPrint ∧
      (writeBytes s b).mSize = s.mSize := by
  unfold writeBytes
  simp only
  split_ifs <;> exact ⟨rfl, rfl, rfl, rfl⟩

theorem applyOp_wellFormed (s : TrafficRecorder Int Int) (hwf : WellFormed s) (op : Op) :
    ∃ s2, applyOp s op = some s2 ∧ WellFormed s2 ∧ s2.mSize = s.mSize := by
  cases op with
  | init => exact ⟨_, rfl, init_wellFormed s hwf, rfl⟩
  | AdvanceClock now => exact ⟨_, rfl, updateClock_wellFormed s hwf now, rfl⟩
  | RecordBytes b => exact ⟨_, rfl, writeBytes_wellFormed s hwf b, (writeBytes_accu s b).2.2.2⟩
  | SumLastPeriod p =>
    obtain ⟨j, v, hread, hj⟩ := read_spec s hwf p
    refine ⟨{ s with mHeadIdx := j }, ?_, ⟨hwf.1, hwf.2.1, hj, hwf.2.2.2⟩, rfl⟩
    simp only [applyOp, hread, Option.map_some']
  | ReportIfDue p u =>
    refine ⟨_, rfl, printAccuBitsForLastPeriod_wellFormed s hwf p u, ?_⟩
    unfold printAccuBitsForLastPeriod
    simp only
    split <;> rfl

theorem runOps_wellFormed (ops : List Op) (s : TrafficRecorder Int Int) (hwf : WellFormed s) :
    ∃ s2, runOps s ops = some s2 ∧ WellFormed s2 ∧ s2.mSize = s.mSize := by
  induction ops generalizing s with
  | nil => exact ⟨s, rfl, hwf, rfl⟩
  | cons op r ih =>
    obtain ⟨s1, h1, hwf1, hsz1⟩ := applyOp_wellFormed s hwf op
    obtain ⟨s2, h2, hwf2, hsz2⟩ := ih s1 hwf1
    refine ⟨s2, ?_, hwf2, by rw [hsz2, hsz1]⟩
    simp only [runOps, h1, Option.some_bind, h2]

theorem runOps_accu (ops : List Op) (s : TrafficRecorder Int Int) (hwf : WellFormed s)
    (acc : List Int) (hacc : s.mAccuBytesOfPrint = acc.sum) :
    ∃ s2, runOps s ops = some s2 ∧
      s2.mAccuBytesOfPrint = (bytesSinceFlush s.mClock s.mLastTimeOfPrint acc ops).sum := by
  induction ops generalizing s acc with
  | nil => exact ⟨s, rfl, hacc⟩
  | cons op r ih =>
    cases op with
    | init =>
      obtain ⟨s2, h2, ha⟩ := ih (init s) (init_wellFormed s hwf) acc hacc
      exact ⟨s2, by simp only [runOps, applyOp, Option.some_bind, h2], ha⟩
    | AdvanceClock now =>
      obtain ⟨s2, h2, ha⟩ := ih (updateClock s now) (updateClock_wellFormed s hwf now) acc hacc
      exact ⟨s2, by simp only [runOps, applyOp, Option.some_bind, h2], ha⟩
    | RecordBytes b =>
      obtain ⟨e1, e2, e3, -⟩ := writeBytes_accu s b
      obtain ⟨s2, h2, ha⟩ := ih (writeBytes s b) (writeBytes_wellFormed s hwf b) (acc ++ [b])
        (by rw [e1, hacc]; simp)
      rw [e2, e3] at ha
      exact ⟨s2, by simp only [runOps, applyOp, Option.some_bind, h2], ha⟩
    | SumLastPeriod p =>
      obtain ⟨j, v, hread, hj⟩ := read_spec s hwf p
      obtain ⟨s2, h2, ha⟩ := ih { s with mHeadIdx := j } ⟨hwf.1, hwf.2.1, hj, hwf.2.2.2⟩ acc hacc
      exact ⟨s2, by simp only [runOps, applyOp, hread, Option.map_some', Option.some_bind, h2], ha⟩
    | ReportIfDue p u =>
      by_cases hdue : s.mClock - s.mLastTimeOfPrint > p
      · have e : printAccuBitsForLastPeriod s p u =
            init { s with mLastTimeOfPrint := s.mClock, mAccuBytesOfPrint := 0 } := by
          unfold printAccuBitsForLastPeriod
          simp only [hdue, if_true]
        obtain ⟨s2, h2, ha⟩ := ih (init { s with mLastTimeOfPrint := s.mClock, mAccuBytesOfPrint := 0 })
          (init_wellFormed _ hwf) [] rfl
        refine ⟨s2, by simp only [runOps, applyOp, e, Option.some_bind, h2], ?_⟩
        simp only [bytesSinceFlush, hdue, if_true]
        exact ha
      · have e : printAccuBitsForLastPeriod s p u = s := by
          unfold printAccuBitsForLastPeriod
          simp only [hdue, if_false]
        obtain ⟨s2, h2, ha⟩ := ih s hwf acc hacc
        refine ⟨s2, by simp only [runOps, applyOp, e, Option.some_bind, h2], ?_⟩
        simp only [bytesSinceFlush, hdue, if_false]
        exact ha

theorem readLoopIndices_lt (s : TrafficRecorder Int Int) (hwf : WellFormed s) (c : Int)
    (fuel i : Nat) (hi : i < s.mSize) : ∀ x ∈ readLoopIndices s c fuel i, x < s.mSize := by
  induction fuel generalizing i with
  | zero =>
    unfold readLoopIndices
    split <;> simp
  | succ n ih =>
    obtain ⟨⟨e, he, hC⟩, hM, -, -⟩ := hwf
    have hp := prevIdx_eq s.mSize e i he hC hi
    rw [← hM] at hp
    unfold readLoopIndices
    split
    · simp
    · simp only
      split
      · intro x hx
        rw [List.mem_singleton] at hx
        rw [hx]; exact hi
      · intro x hx
        rcases List.mem_cons.1 hx with rfl | hx
        · exact hi
        · rw [hp] at hx
          exact ih _ (predIdx_lt _ _ hi) x hx

theorem writeBytesIndices_lt (s : TrafficRecorder Int Int) (hwf : WellFormed s) :
    ∀ x ∈ writeBytesIndices s, x < s.mSize := by
  have hT := hwf.2.2.2
  intro x hx
  unfold writeBytesIndices at hx
  simp only [List.mem_cons, List.mem_singleton, List.not_mem_nil, or_false] at hx
  rcases hx with rfl | rfl
  · exact hT
  · split
    · exact hT
    · exact Nat.mod_lt _ (by omega)

theorem ctor_mSize_small {Time Bytes : Type} [Zero Time] [Zero Bytes] (k : Nat) (hk : k ≤ 1)
    (tm : Nat → Time) (bm : Nat → Bytes) : (ctor k tm bm).mSize = 1 := by
  interval_cases k <;> rfl

/-! ## What a read leaves behind -/

theorem backDist_self (C i : Nat) : backDist C i i = 0 := by
  unfold backDist
  simp

theorem iterate_predIdx_backDist (C : Nat) (n i j : Nat) (hi : i < C) (hj : j < C)
    (hn : backDist C i j = n) : Nat.iterate (predIdx C) n i = j := by
  induction n generalizing i with
  | zero => exact (backDist_eq_zero C i j hi hj).1 hn
  | succ n ih =>
    have hne : i ≠ j := by
      intro h
      have := (backDist_eq_zero C i j hi hj).2 h
      omega
    have hd := backDist_predIdx C i j hi hj hne
    rw [Function.iterate_succ_apply]
    exact ih _ (predIdx_lt _ _ hi) (by omega)

theorem readLoop_post (s : TrafficRecorder Int Int) (hwf : WellFormed s) (c : Int)
    (fuel i : Nat) (acc : Int) (hi : i < s.mSize) (j : Nat) (v : Int)
    (h : readLoop s c fuel i acc = some (j, v)) :
    j < s.mSize ∧
      backDist s.mSize i j + backDist s.mSize j s.mHeadIdx = backDist s.mSize i s.mHeadIdx ∧
      v = acc + ((walkBack s (backDist s.mSize i j) i).map Prod.snd).sum ∧
      (∀ x ∈ walkBack s (backDist s.mSize i j) i, c ≤ x.1) ∧
      (j ≠ s.mHeadIdx → s.mTimeArray j < c) := by
  have stay : ∀ (i2 : Nat) (acc2 : Int), i2 < s.mSize →
      (i2 ≠ s.mHeadIdx → s.mTimeArray i2 < c) →
      i2 < s.mSize ∧
        backDist s.mSize i2 i2 + backDist s.mSize i2 s.mHeadIdx
          = backDist s.mSize i2 s.mHeadIdx ∧
        acc2 = acc2 + ((walkBack s (backDist s.mSize i2 i2) i2).map Prod.snd).sum ∧
        (∀ x ∈ walkBack s (backDist s.mSize i2 i2) i2, c ≤ x.1) ∧
        (i2 ≠ s.mHeadIdx → s.mTimeArray i2 < c) := by
    intro i2 acc2 hi2 hlt
    rw [backDist_self]
    refine ⟨hi2, by omega, by simp [walkBack], ?_, hlt⟩
    intro x hx
    exact absurd hx (List.not_mem_nil _)
  induction fuel generalizing i acc with
  | zero =>
    by_cases h0 : i = s.mHeadIdx
    · rw [h0, readLoop_at_head] at h
      simp only [Option.some.injEq, Prod.mk.injEq] at h
      rw [← h.1, ← h.2, h0]
      exact stay _ _ hwf.2.2.1 (fun hne => absurd rfl hne)
    · unfold readLoop at h
      simp [h0] at h
  | succ n ih =>
    by_cases h0 : i = s.mHeadIdx
    · rw [h0, readLoop_at_head] at h
      simp only [Option.some.injEq, Prod.mk.injEq] at h
      rw [← h.1, ← h.2, h0]
      exact stay _ _ hwf.2.2.1 (fun hne => absurd rfl hne)
    · by_cases hlt : s.mTimeArray i < c
      · rw [readLoop_stop s c n i acc h0 hlt] at h
        simp only [Option.some.injEq, Prod.mk.injEq] at h
        rw [← h.1, ← h.2]
        exact stay _ _ hi (fun _ => hlt)
      · rw [readLoop_step s hwf c n i acc hi h0 hlt] at h
        have hP := predIdx_lt s.mSize i hi
        obtain ⟨hj, hsum, hv, hall, hstop⟩ := ih _ _ hP h
        have hd := backDist_predIdx s.mSize i s.mHeadIdx hi hwf.2.2.1 h0
        have hne : i ≠ j := by
          intro hij
          rw [← hij] at hsum
          have := backDist_self s.mSize i
          have h2 : backDist s.mSize (predIdx s.mSize i) i
              + backDist s.mSize i s.mHeadIdx
              = backDist s.mSize (predIdx s.mSize i) s.mHeadIdx := hsum
          omega
        have hd2 := backDist_predIdx s.mSize i j hi hj hne
        refine ⟨hj, by omega, ?_, ?_, hstop⟩
        · rw [← hd2]
          simp only [walkBack, List.map_cons, List.sum_cons]
          rw [hv]; omega
        · rw [← hd2]
          simp only [walkBack, List.mem_cons]
          intro x hx
          rcases hx with rfl | hx
          · show c ≤ s.mTimeArray i
            omega
          · exact hall x hx

theorem readLoopIndices_length (s : TrafficRecorder Int Int) (hwf : WellFormed s) (c : Int)
    (fuel i : Nat) (hi : i < s.mSize) :
    (readLoopIndices s c fuel i).length ≤ backDist s.mSize i s.mHeadIdx := by
  induction fuel generalizing i with
  | zero =>
    unfold readLoopIndices
    split <;> simp
  | succ n ih =>
    obtain ⟨⟨e, he, hC⟩, hM, hH, -⟩ := hwf
    have hp := prevIdx_eq s.mSize e i he hC hi
    rw [← hM] at hp
    unfold readLoopIndices
    split
    · simp
    · rename_i h0
      have hd := backDist_predIdx s.mSize i s.mHeadIdx hi hH h0
      simp only
      split
      · simp only [List.length_singleton]; omega
      · rw [hp, List.length_cons]
        have := ih _ (predIdx_lt _ _ hi)
        omega

theorem backDist_eq_emod (C i h : Nat) (hi : i < C) (hh : h < C) :
    (((i : Int) - (h : Int)) % (C : Int)).toNat = backDist C i h := by
  unfold backDist
  split
  · rename_i hle
    rw [Int.emod_eq_of_lt (by omega) (by omega)]
    omega
  · rename_i hle
    rw [← Int.add_emod_self, Int.emod_eq_of_lt (by omega) (by omega)]
    omega

theorem readLoop_head_bytes (s : TrafficRecorder Int Int) (b c : Int) (fuel i : Nat)
    (acc : Int) :
    readLoop { s with mBytesArray := Function.update s.mBytesArray s.mHeadIdx b } c fuel i acc
      = readLoop s c fuel i acc := by
  induction fuel generalizing i acc with
  | zero =>
    by_cases h0 : i = s.mHeadIdx
    · rw [h0]
      exact (readLoop_at_head { s with mBytesArray := Function.update s.mBytesArray s.mHeadIdx b }
        c 0 acc).trans (readLoop_at_head s c 0 acc).symm
    · conv_lhs => unfold readLoop
      conv_rhs => unfold readLoop
  | succ n ih =>
    by_cases h0 : i = s.mHeadIdx
    · rw [h0]
      exact (readLoop_at_head { s with mBytesArray := Function.update s.mBytesArray s.mHeadIdx b }
        c _ acc).trans (readLoop_at_head s c _ acc).symm
    · conv_lhs => unfold readLoop
      conv_rhs => unfold readLoop
      simp only [h0, if_false, Function.update_noteq h0]
      split
      · rfl
      · exact ih _ _

theorem read_head_bytes (s : TrafficRecorder Int Int) (b p : Int) :
    (readBytesForLastPeriod
        { s with mBytesArray := Function.update s.mBytesArray s.mHeadIdx b } p).map Prod.fst
      = (readBytesForLastPeriod s p).map Prod.fst := by
  have h := readLoop_head_bytes s b (s.mClock - p) s.mSize s.mTailIdx 0
  unfold readBytesForLastPeriod
  simp only [h]
  cases readLoop s (s.mClock - p) s.mSize s.mTailIdx 0 with
  | none => rfl
  | some r => rfl

theorem recordAt_clock (s : TrafficRecorder Int Int) (w : Int × Int) :
    (recordAt s w).mClock = w.1 :=
  (writeBytes_accu (updateClock s w.1) w.2).2.1

theorem recordAll_clock (s : TrafficRecorder Int Int) (w : Int × Int) (r : List (Int × Int)) :
    (recordAll s (w :: r)).mClock = ((w :: r).getLast (List.cons_ne_nil w r)).1 := by
  induction r generalizing s w with
  | nil => exact recordAt_clock s w
  | cons w2 r ih =>
    rw [List.getLast_cons_cons]
    exact ih (recordAt s w) w2

theorem writeBytes_coalesce_frame (s : TrafficRecorder Int Int) (hwf : WellFormed s) (b : Int)
    (hc : s.mClock = s.mTimeArray s.mTailIdx) (hne : s.mTailIdx ≠ s.mHeadIdx) :
    (writeBytes s b).mHeadIdx = s.mHeadIdx ∧ (writeBytes s b).mTailIdx = s.mTailIdx ∧
      (writeBytes s b).mClock = s.mClock ∧ (writeBytes s b).mTimeArray = s.mTimeArray ∧
      (writeBytes s b).mBytesArray s.mTailIdx = s.mBytesArray s.mTailIdx + b ∧
      (∀ i, i ≠ s.mTailIdx → (writeBytes s b).mBytesArray i = s.mBytesArray i) ∧
      (writeBytes s b).mAccuBytesOfPrint = s.mAccuBytesOfPrint + b := by
  rw [writeBytes_coalesce s hwf b hc]
  refine ⟨by simp only [hne, if_false], rfl, rfl, rfl, Function.update_same _ _ _,
    fun i hi => Function.update_noteq hi _ _, rfl⟩

/-! ## Ordering of the stored timestamps when every write is made at a positive clock -/

theorem orderInv_ctor (k : Nat) (tm bm : Nat → Int) : OrderInv (ctor k tm bm) := by
  have hwf := ctor_wellFormed k tm bm
  have hh : (ctor k tm bm).mHeadIdx = 0 := rfl
  have ht : (ctor k tm bm).mTailIdx = 0 := rfl
  have h0 : (ctor k tm bm).mTimeArray 0 = 0 := by simp [ctor, init]
  have hc : (ctor k tm bm).mClock = 0 := rfl
  refine ⟨hwf, ?_, by rw [ht, h0, hc], fun _ _ => Or.inl (by rw [ht, h0])⟩
  intro i j hi hj hlt hle
  rw [ht] at hlt
  rw [ht, hh, backDist_self] at hle
  omega

theorem orderInv_updateClock (s : TrafficRecorder Int Int) (t : Int) (hinv : OrderInv s)
    (hle : s.mClock ≤ t) : OrderInv (updateClock s t) := by
  obtain ⟨hwf, hord, hclk, hemp⟩ := hinv
  refine ⟨updateClock_wellFormed s hwf t, hord, le_trans hclk hle, fun h2 hth => ?_⟩
  rcases hemp h2 hth with h | h
  · exact Or.inl h
  · exact Or.inr (lt_of_lt_of_le h hle)

theorem orderInv_writeBytes (s : TrafficRecorder Int Int) (b : Int) (hinv : OrderInv s)
    (hpos : 0 < s.mClock) : OrderInv (writeBytes s b) := by
  obtain ⟨hwf, hord, hclk, hemp⟩ := hinv
  have hH := hwf.2.2.1
  have hT := hwf.2.2.2
  have hwf2 := writeBytes_wellFormed s hwf b
  by_cases hc : s.mClock = s.mTimeArray s.mTailIdx
  · have e := writeBytes_coalesce s hwf b hc
    by_cases hC2 : 2 ≤ s.mSize
    · have hne : s.mTailIdx ≠ s.mHeadIdx := by
        intro h
        rcases hemp hC2 h with h1 | h1 <;> omega
      have hhd : (writeBytes s b).mHeadIdx = s.mHeadIdx := by
        rw [e]; simp only [hne, if_false]
      have htl : (writeBytes s b).mTailIdx = s.mTailIdx := by rw [e]
      have htm : (writeBytes s b).mTimeArray = s.mTimeArray := by rw [e]
      have hsz : (writeBytes s b).mSize = s.mSize := by rw [e]
      have hck : (writeBytes s b).mClock = s.mClock := by rw [e]
      refine ⟨hwf2, ?_, by rw [htm, htl, hck]; exact hclk, ?_⟩
      · intro i j hi hj hlt hle
        rw [hsz] at hi hj
        rw [hsz, htl] at hlt
        rw [hsz, htl, hhd] at hle
        rw [htm]
        exact hord i j hi hj hlt hle
      · intro _ hth
        rw [htl, hhd] at hth
        exact absurd hth hne
    · have hsz : (writeBytes s b).mSize = s.mSize := by rw [e]
      have htl : (writeBytes s b).mTailIdx = s.mTailIdx := by rw [e]
      have htm : (writeBytes s b).mTimeArray = s.mTimeArray := by rw [e]
      have hck : (writeBytes s b).mClock = s.mClock := by rw [e]
      refine ⟨hwf2, ?_, by rw [htm, htl, hck]; exact hclk, fun h2 => ?_⟩
      · intro i j hi hj hlt hle
        rw [hsz] at hi hj
        have hi0 : i = 0 := by omega
        have hj0 : j = 0 := by omega
        rw [hi0, hj0] at hlt
        omega
      · rw [hsz] at h2
        omega
  · have e := writeBytes_append s hwf b hc
    have hlt : s.mTimeArray s.mTailIdx < s.mClock := by omega
    have hW := succIdx_lt s.mSize s.mTailIdx hT
    have hsz : (writeBytes s b).mSize = s.mSize := by rw [e]
    have htl : (writeBytes s b).mTailIdx = succIdx s.mSize s.mTailIdx := by rw [e]
    have htm : (writeBytes s b).mTimeArray =
        Function.update s.mTimeArray (succIdx s.mSize s.mTailIdx) s.mClock := by rw [e]
    have hck : (writeBytes s b).mClock = s.mClock := by rw [e]
    have hhd : (writeBytes s b).mHeadIdx =
        if succIdx s.mSize s.mTailIdx = s.mHeadIdx then succIdx s.mSize s.mHeadIdx
        else s.mHeadIdx := by rw [e]
    have hold : ∀ j, j < s.mSize →
        backDist s.mSize s.mTailIdx j ≤ backDist s.mSize s.mTailIdx s.mHeadIdx →
        s.mTimeArray j ≤ s.mTimeArray s.mTailIdx := by
      intro j hj hle
      by_cases hjt : j = s.mTailIdx
      · rw [hjt]
      · have hpos2 : 0 < backDist s.mSize s.mTailIdx j := by
          have := (backDist_eq_zero s.mSize s.mTailIdx j hT hj)
          by_contra hcon
          exact hjt (this.1 (by omega)).symm
        have := hord s.mTailIdx j hT hj (by rw [backDist_self]; exact hpos2) hle
        omega
    refine ⟨hwf2, ?_, by rw [htm, htl, hck, Function.update_same], ?_⟩
    · intro i j hi hj hlt2 hle
      rw [hsz] at hi hj
      rw [hsz, htl] at hlt2
      rw [hsz, htl, hhd] at hle
      rw [htm]
      have hjw : succIdx s.mSize s.mTailIdx ≠ j := by
        intro h
        rw [← h, backDist_self] at hlt2
        omega
      have hdj := backDist_succIdx s.mSize s.mTailIdx j hT hj hjw
      have hjin : backDist s.mSize s.mTailIdx j ≤ backDist s.mSize s.mTailIdx s.mHeadIdx := by
        by_cases hfull : succIdx s.mSize s.mTailIdx = s.mHeadIdx
        · rw [if_pos hfull] at hle
          have h1 := backDist_to_succIdx s.mSize s.mTailIdx hT
          have h2 := backDist_to_succIdx s.mSize (succIdx s.mSize s.mTailIdx) hW
          rw [hfull] at h1 h2
          rw [hfull] at hle hdj
          omega
        · rw [if_neg hfull] at hle
          have h1 := backDist_succIdx s.mSize s.mTailIdx s.mHeadIdx hT hH hfull
          omega
      rw [Function.update_noteq (Ne.symm hjw)]
      by_cases hiw : i = succIdx s.mSize s.mTailIdx
      · rw [hiw, Function.update_same]
        have := hold j hj hjin
        omega
      · rw [Function.update_noteq hiw]
        have hdi := backDist_succIdx s.mSize s.mTailIdx i hT hi (Ne.symm hiw)
        exact hord i j hi hj (by omega) hjin
    · intro h2 hth
      rw [hsz] at h2
      rw [htl, hhd] at hth
      exfalso
      by_cases hfull : succIdx s.mSize s.mTailIdx = s.mHeadIdx
      · rw [if_pos hfull, hfull] at hth
        unfold succIdx at hth
        split_ifs at hth <;> omega
      · rw [if_neg hfull] at hth
        exact hfull hth

theorem orderInv_read (s : TrafficRecorder Int Int) (p : Int) (hinv : OrderInv s)
    (hp : 0 ≤ p) :
    ∃ v s2, readBytesForLastPeriod s p = some (v, s2) ∧ OrderInv s2 ∧ s2.mClock = s.mClock := by
  obtain ⟨hwf, hord, hclk, hemp⟩ := hinv
  obtain ⟨j, v, hr, hread⟩ := read_total s hwf p
  obtain ⟨hj, hsum, -, -, hstop⟩ :=
    readLoop_post s hwf (s.mClock - p) s.mSize s.mTailIdx 0 hwf.2.2.2 j v hr
  refine ⟨v, { s with mHeadIdx := j }, hread, ⟨⟨hwf.1, hwf.2.1, hj, hwf.2.2.2⟩, ?_, hclk, ?_⟩, rfl⟩
  · intro i k hi hk hlt hle
    exact hord i k hi hk hlt (by
      show backDist s.mSize s.mTailIdx k ≤ backDist s.mSize s.mTailIdx s.mHeadIdx
      have : backDist s.mSize s.mTailIdx k ≤ backDist s.mSize s.mTailIdx j := hle
      omega)
  · intro h2 hth
    have hth2 : s.mTailIdx = j := hth
    by_cases hjh : j = s.mHeadIdx
    · exact hemp h2 (hth2.trans hjh)
    · right
      have := hstop hjh
      show s.mTimeArray s.mTailIdx < s.mClock
      rw [hth2]
      omega

theorem runOps_orderInv (ops : List Op) (s : TrafficRecorder Int Int) (hinv : OrderInv s)
    (hops : OrderedCalls s.mClock ops) : ∃ s2, runOps s ops = some s2 ∧ OrderInv s2 := by
  induction ops generalizing s with
  | nil => exact ⟨s, rfl, hinv⟩
  | cons op r ih =>
    cases op with
    | init => exact absurd hops (by simp [OrderedCalls])
    | AdvanceClock now =>
      simp only [OrderedCalls] at hops
      obtain ⟨s2, h2, hi2⟩ := ih (updateClock s now) (orderInv_updateClock s now hinv hops.1)
        hops.2
      exact ⟨s2, by simp only [runOps, applyOp, Option.some_bind, h2], hi2⟩
    | RecordBytes b =>
      simp only [OrderedCalls] at hops
      have hck := (writeBytes_accu s b).2.1
      obtain ⟨s2, h2, hi2⟩ := ih (writeBytes s b) (orderInv_writeBytes s b hinv hops.1)
        (by rw [hck]; exact hops.2)
      exact ⟨s2, by simp only [runOps, applyOp, Option.some_bind, h2], hi2⟩
    | SumLastPeriod p =>
      simp only [OrderedCalls] at hops
      obtain ⟨v, s1, hread, hi1, hck⟩ := orderInv_read s p hinv hops.1
      obtain ⟨s2, h2, hi2⟩ := ih s1 hi1 (by rw [hck]; exact hops.2)
      exact ⟨s2, by simp only [runOps, applyOp, hread, Option.map_some', Option.some_bind, h2],
        hi2⟩
    | ReportIfDue p u => exact absurd hops (by simp [OrderedCalls])

/-- The ordering the stored timestamps do have: on a freshly constructed recorder, after
any sequence of `updateClock` calls with non-decreasing values (from the initial clock 0),
`writeBytes` calls made at a strictly positive clock and `readBytesForLastPeriod` calls with
non-negative periods, every call returns and the timestamps in the slots from head to tail
strictly increase towards tail. -/
theorem slots_ordered_of_positive_writes (k : Nat) (tm bm : Nat → Int) (ops : List Op)
    (hops : OrderedCalls 0 ops) :
    ∃ s, runOps (ctor k tm bm) ops = some s ∧ SlotsOrdered s := by
  obtain ⟨s, hs, hinv⟩ := runOps_orderInv ops (ctor k tm bm) (orderInv_ctor k tm bm) hops
  exact ⟨s, hs, hinv.2.1⟩

/-! ## Claims -/

/-- C1. With integer time and byte counts: on a recorder freshly constructed with effective
capacity at least 2, after any sequence of `updateClock`/`writeBytes` calls whose clock
values are non-decreasing and strictly positive and which writes at fewer distinct clock
values than the capacity, `readBytesForLastPeriod(p)` with `p ≥ 0` returns the sum of all
byte counts that were recorded at clock values `t ≥ clock - p`. -/
theorem C1_window_sum_eq_reference (k : Nat) (tm bm : Nat → Int) (calls : List Call) (p : Int)
    (_hC : 2 ≤ (ctor k tm bm).mSize)
    (hmono : (clockTrace 0 calls).Pairwise (· ≤ ·))
    (hpos : ∀ t ∈ clockTrace 0 calls, 0 < t)
    (hdistinct : ((written 0 calls).map Prod.fst).toFinset.card < (ctor k tm bm).mSize)
    (_hp : 0 ≤ p) :
    (readBytesForLastPeriod (run (ctor k tm bm) calls) p).map Prod.fst =
      some (sumFrom (finalClock 0 calls - p) (written 0 calls)) := by
  obtain ⟨hinv, hclk⟩ := run_windowInv calls (ctor k tm bm) [] (windowInv_ctor k tm bm) hmono
    (fun t ht => ⟨le_of_lt (hpos t ht), hpos t ht⟩) (by rw [List.nil_append]; exact hdistinct)
  rw [List.nil_append] at hinv
  have hclk2 : (run (ctor k tm bm) calls).mClock = finalClock 0 calls := hclk
  obtain ⟨hwf, -, -, hsorted, -, -, hsum⟩ := hinv
  rw [read_eq_window _ hwf, takeWhile_eq_filter_of_decreasing _ _ hsorted, hclk2]
  exact congrArg some (hsum _)

/-- Witness of C1: capacity 4; 5 and 2 bytes written at clock 1, 4 bytes at clock 3;
period 1. -/
theorem C1_window_sum_eq_reference_witness :
    (readBytesForLastPeriod
        (run (ctor 4 (fun _ => 0) (fun _ => 0))
          [Call.AdvanceClock 1, Call.RecordBytes 5, Call.RecordBytes 2, Call.AdvanceClock 3,
            Call.RecordBytes 4]) 1).map Prod.fst =
      some (sumFrom
        (finalClock 0
          [Call.AdvanceClock 1, Call.RecordBytes 5, Call.RecordBytes 2, Call.AdvanceClock 3,
            Call.RecordBytes 4] - 1)
        (written 0
          [Call.AdvanceClock 1, Call.RecordBytes 5, Call.RecordBytes 2, Call.AdvanceClock 3,
            Call.RecordBytes 4])) := by
  have h := C1_window_sum_eq_reference 4 (fun _ => (0 : Int)) (fun _ => (0 : Int))
    [Call.AdvanceClock 1, Call.RecordBytes 5, Call.RecordBytes 2, Call.AdvanceClock 3,
      Call.RecordBytes 4] 1 (by decide) (by decide) (by decide) (by decide) (by decide)
  exact h

/-- C2 (amended). For every requested capacity of at least 4 and whatever the freshly
allocated arrays hold, after 5 bytes were recorded at each of the clock values 0, 10, 20
and 30, `readBytesForLastPeriod(15)` returns 10; on the same prepared state, for the
requested capacity 4, `readBytesForLastPeriod(100)` returns 15. -/
theorem C2_window_example (k : Nat) (hk : 4 ≤ k) (tm bm : Nat → Int) :
    (readBytesForLastPeriod (windowExample k tm bm) 15).map Prod.fst = some 10 ∧
      (k = 4 →
        (readBytesForLastPeriod (windowExample k tm bm) 100).map Prod.fst = some 15) := by
  refine ⟨by rw [windowExample_read15 k hk tm bm]; rfl, fun h4 => ?_⟩
  subst h4
  rw [windowExample_read100_capacity4 tm bm]
  rfl

/-- Witness of C2 at the requested capacity 4 with zero-filled arrays. -/
theorem C2_window_example_witness :
    (4 : Nat) ≤ 4 ∧
      (readBytesForLastPeriod (windowExample 4 (fun _ => 0) (fun _ => 0)) 15).map Prod.fst
        = some 10 ∧
      (readBytesForLastPeriod (windowExample 4 (fun _ => 0) (fun _ => 0)) 100).map Prod.fst
        = some 15 :=
  ⟨le_refl _, (C2_window_example 4 (le_refl _) (fun _ => 0) (fun _ => 0)).1,
    (C2_window_example 4 (le_refl _) (fun _ => 0) (fun _ => 0)).2 rfl⟩

/-- Counterexample to C2 as stated: at the requested capacity 4 (arrays zero-filled) the
query `readBytesForLastPeriod(100)` on the prepared state returns 15, not 20. -/
theorem C2_counterexample :
    (readBytesForLastPeriod (windowExample 4 (fun _ => 0) (fun _ => 0)) 100).map Prod.fst
        = some 15 ∧
      ¬ ((readBytesForLastPeriod (windowExample 4 (fun _ => 0) (fun _ => 0)) 100).map Prod.fst
        = some 20) := by
  decide

/-- C3 (amended). For every requested capacity of at least 4 and whatever the freshly
allocated arrays hold, after 5 bytes were recorded at each of the clock values 0, 10, 20
and 30, `readBytesForLastPeriod(5)` followed at once by `readBytesForLastPeriod(100)`
makes the second call return 5. -/
theorem C3_eviction_example (k : Nat) (hk : 4 ≤ k) (tm bm : Nat → Int) :
    ((readBytesForLastPeriod (windowExample k tm bm) 5).bind
      fun r => (readBytesForLastPeriod r.2 100).map Prod.fst) = some 5 := by
  rw [windowExample_read5 k hk tm bm, Option.some_bind,
    windowExample_read100_after_read5 k hk tm bm]
  rfl

/-- Witness of C3 at the requested capacity 8 with zero-filled arrays. -/
theorem C3_eviction_example_witness :
    (4 : Nat) ≤ 8 ∧
      ((readBytesForLastPeriod (windowExample 8 (fun _ => 0) (fun _ => 0)) 5).bind
        fun r => (readBytesForLastPeriod r.2 100).map Prod.fst) = some 5 :=
  ⟨by decide, C3_eviction_example 8 (by decide) (fun _ => 0) (fun _ => 0)⟩

/-- Counterexample to C3 as stated: at the requested capacity 8 (arrays zero-filled) the
second call returns 5, not 15. -/
theorem C3_counterexample :
    ¬ (((readBytesForLastPeriod (windowExample 8 (fun _ => 0) (fun _ => 0)) 5).bind
      fun r => (readBytesForLastPeriod r.2 100).map Prod.fst) = some 15) := by
  decide

/-- C4. On a well-formed recorder over the integers and for `p1 ≤ p2`,
`readBytesForLastPeriod(p1)` returns some value `v` and an immediately following
`readBytesForLastPeriod(p2)` returns the same `v` and leaves the state, head included,
exactly as the first call left it. -/
theorem C4_evicted_never_recovered (s : TrafficRecorder Int Int) (hwf : WellFormed s)
    (p1 p2 : Int) (hp : p1 ≤ p2) :
    ∃ v s1, readBytesForLastPeriod s p1 = some (v, s1) ∧
      readBytesForLastPeriod s1 p2 = some (v, s1) := by
  obtain ⟨j, v, hr, hread⟩ := read_total s hwf p1
  refine ⟨v, { s with mHeadIdx := j }, hread, ?_⟩
  have h2 := readLoop_again s hwf (s.mClock - p1) (s.mClock - p2) (by omega) s.mSize
    s.mTailIdx 0 hwf.2.2.2 j v hr
  exact read_of_readLoop { s with mHeadIdx := j } p2 s.mSize j v h2 (le_refl _)

/-- Witness of C4: the prepared state of the window examples at capacity 4, periods 5
and 100. -/
theorem C4_evicted_never_recovered_witness :
    ∃ v s1, readBytesForLastPeriod (windowExample 4 (fun _ => 0) (fun _ => 0)) 5 = some (v, s1) ∧
      readBytesForLastPeriod s1 100 = some (v, s1) :=
  C4_evicted_never_recovered (windowExample 4 (fun _ => 0) (fun _ => 0))
    (windowExample_fields 4 (le_refl _) _ _).1 5 100 (by decide)

/-- C5. On a well-formed recorder, `writeBytes(b1)` followed by `writeBytes(b2)` with no
`updateClock` in between gives exactly the state that the single call
`writeBytes(b1 + b2)` gives, so every later `readBytesForLastPeriod` agrees as well. -/
theorem C5_coalescing {Time Bytes : Type} [Sub Time] [LT Time]
    [DecidableRel ((· < ·) : Time → Time → Prop)] [DecidableEq Time] [Zero Bytes]
    [AddSemigroup Bytes]
    (s : TrafficRecorder Time Bytes) (hwf : WellFormed s) (b1 b2 : Bytes) :
    writeBytes (writeBytes s b1) b2 = writeBytes s (b1 + b2) ∧
      ∀ p, readBytesForLastPeriod (writeBytes (writeBytes s b1) b2) p =
        readBytesForLastPeriod (writeBytes s (b1 + b2)) p := by
  have key : writeBytes (writeBytes s b1) b2 = writeBytes s (b1 + b2) := by
    have hwf1 := writeBytes_wellFormed s hwf b1
    have hH := hwf.2.2.1
    have hT := hwf.2.2.2
    by_cases hc : s.mClock = s.mTimeArray s.mTailIdx
    · have hc1 : (writeBytes s b1).mClock = (writeBytes s b1).mTimeArray (writeBytes s b1).mTailIdx := by
        rw [writeBytes_coalesce s hwf b1 hc]; exact hc
      rw [writeBytes_coalesce _ hwf1 b2 hc1, writeBytes_coalesce s hwf b1 hc,
        writeBytes_coalesce s hwf (b1 + b2) hc]
      ext1
      · rfl
      · rfl
      · rfl
      · simp [add_assoc]
      · simp only [succIdx]
        split_ifs <;> omega
      · rfl
      · rfl
      · rfl
      · simp [add_assoc]
    · have hc1 : (writeBytes s b1).mClock = (writeBytes s b1).mTimeArray (writeBytes s b1).mTailIdx := by
        rw [writeBytes_append s hwf b1 hc]; simp
      rw [writeBytes_coalesce _ hwf1 b2 hc1, writeBytes_append s hwf b1 hc,
        writeBytes_append s hwf (b1 + b2) hc]
      ext1
      · rfl
      · rfl
      · rfl
      · simp
      · simp only [succIdx]
        split_ifs <;> first | omega | contradiction
      · rfl
      · rfl
      · rfl
      · simp [add_assoc]
  exact ⟨key, fun p => by rw [key]⟩

/-- Witness of C5: a recorder of capacity 4 with the clock at 7. -/
theorem C5_coalescing_witness :
    writeBytes (writeBytes (updateClock (ctor 4 (fun _ => (0 : Int)) (fun _ => (0 : Int))) 7) 2) 3
      = writeBytes (updateClock (ctor 4 (fun _ => (0 : Int)) (fun _ => (0 : Int))) 7) (2 + 3) :=
  (C5_coalescing (updateClock (ctor 4 (fun _ => (0 : Int)) (fun _ => (0 : Int))) 7)
    (ctor_wellFormed 4 _ _) 2 3).1

/-- C6 (amended). For a recorder freshly constructed with effective capacity `C`, after
`C + 1` `updateClock`/`writeBytes` pairs made at strictly increasing positive clock values,
a `readBytesForLastPeriod` whose window covers all `C + 1` timestamps returns the sum of
the byte counts of the `C - 1` most recent writes. -/
theorem C6_overflow_keeps_newest (k : Nat) (tm bm : Nat → Int) (ws : List (Int × Int))
    (p : Int) (_hlen : ws.length = (ctor k tm bm).mSize + 1)
    (hinc : (ws.map Prod.fst).Pairwise (· < ·)) (hpos : ∀ w ∈ ws, 0 < w.1)
    (hcover : ∀ w ∈ ws, (recordAll (ctor k tm bm) ws).mClock - p ≤ w.1) :
    (readBytesForLastPeriod (recordAll (ctor k tm bm) ws) p).map Prod.fst =
      some (((ws.reverse.take ((ctor k tm bm).mSize - 1)).map Prod.snd).sum) :=
  read_after_recordAll k tm bm ws p hinc hpos hcover

/-- Witness of C6: capacity 2, writes of 1, 2 and 4 bytes at the clock values 1, 2, 3,
period 10. -/
theorem C6_overflow_keeps_newest_witness :
    (readBytesForLastPeriod
        (recordAll (ctor 2 (fun _ => (0 : Int)) (fun _ => (0 : Int)))
          [((1 : Int), (1 : Int)), (2, 2), (3, 4)]) (10 : Int)).map Prod.fst =
      some ((([((1 : Int), (1 : Int)), (2, 2), (3, 4)].reverse.take
        ((ctor 2 (fun _ => (0 : Int)) (fun _ => (0 : Int))).mSize - 1)).map Prod.snd).sum) := by
  have h := C6_overflow_keeps_newest 2 (fun _ => (0 : Int)) (fun _ => (0 : Int))
    [((1 : Int), (1 : Int)), (2, 2), (3, 4)] 10 (by decide) (by decide) (by decide) (by decide)
  exact h

/-- Counterexample to C6 as stated: at capacity 2, after writes of 1, 2 and 4 bytes at the
clock values 1, 2, 3, a read with period 10 returns 4, not the sum 6 of the two most
recent writes. -/
theorem C6_counterexample :
    (readBytesForLastPeriod
        (recordAll (ctor 2 (fun _ => (0 : Int)) (fun _ => (0 : Int)))
          [((1 : Int), (1 : Int)), (2, 2), (3, 4)]) (10 : Int)).map Prod.fst
        = some 4 ∧
      ¬ ((readBytesForLastPeriod
        (recordAll (ctor 2 (fun _ => (0 : Int)) (fun _ => (0 : Int)))
          [((1 : Int), (1 : Int)), (2, 2), (3, 4)]) (10 : Int)).map Prod.fst
        = some ((([((1 : Int), (1 : Int)), (2, 2), (3, 4)].reverse.take 2).map Prod.snd).sum)) := by
  decide

/-- C7 (amended). The constructor sets `mSize` to the smallest power of two that is at
least the requested size `k` whenever `k ≤ 2 ^ 32`; for every larger `k` the loop bound
`exp < 32` stops the search and `mSize` is `2 ^ 32`. In particular 0 gives 1, 1 gives 1,
5 gives 8, 128 gives 128 and 129 gives 256. -/
theorem C7_capacity_rounding {Time Bytes : Type} [Zero Time] [Zero Bytes] (k : Nat)
    (tm : Nat → Time) (bm : Nat → Bytes) :
    (k ≤ 2 ^ 32 →
        (∃ e, (ctor k tm bm).mSize = 2 ^ e) ∧ k ≤ (ctor k tm bm).mSize ∧
          ∀ e, k ≤ 2 ^ e → (ctor k tm bm).mSize ≤ 2 ^ e) ∧
      (2 ^ 32 < k → (ctor k tm bm).mSize = 2 ^ 32) ∧
      (ctor 0 tm bm).mSize = 1 ∧ (ctor 1 tm bm).mSize = 1 ∧ (ctor 5 tm bm).mSize = 8 ∧
      (ctor 128 tm bm).mSize = 128 ∧ (ctor 129 tm bm).mSize = 256 := by
  obtain ⟨-, h2, h3, h4⟩ := ctorExp_spec k 32 0
  have hle : ctorExp k 32 0 ≤ 32 := by omega
  refine ⟨fun hk => ⟨⟨_, ctor_mSize k tm bm⟩, ?_, fun e he => ?_⟩, fun hk => ?_,
    rfl, rfl, rfl, rfl, rfl⟩
  · rw [ctor_mSize]
    by_cases hlt : ctorExp k 32 0 < 0 + 32
    · have := h3 hlt
      rwa [shl_one_mod _ hle] at this
    · have h32 : ctorExp k 32 0 = 32 := by omega
      rw [h32]; exact hk
  · rw [ctor_mSize]
    apply Nat.pow_le_pow_right (by decide)
    by_contra hlt
    have hlt2 : e < ctorExp k 32 0 := by omega
    have := h4 e (Nat.zero_le _) hlt2
    rw [shl_one_mod e (by omega)] at this
    exact this he
  · rw [ctor_mSize]
    by_cases hlt : ctorExp k 32 0 < 0 + 32
    · have h5 := h3 hlt
      rw [shl_one_mod _ hle] at h5
      have h6 : 2 ^ ctorExp k 32 0 ≤ 2 ^ 32 := Nat.pow_le_pow_right (by decide) hle
      omega
    · have h32 : ctorExp k 32 0 = 32 := by omega
      rw [h32]

/-- Witness of C7 at the requested size 5. -/
theorem C7_capacity_rounding_witness :
    (5 : Nat) ≤ 2 ^ 32 ∧
      ((∃ e, (ctor 5 (fun _ => (0 : Int)) (fun _ => (0 : Int))).mSize = 2 ^ e) ∧
        5 ≤ (ctor 5 (fun _ => (0 : Int)) (fun _ => (0 : Int))).mSize ∧
        ∀ e, 5 ≤ 2 ^ e → (ctor 5 (fun _ => (0 : Int)) (fun _ => (0 : Int))).mSize ≤ 2 ^ e) :=
  ⟨by norm_num,
    (C7_capacity_rounding 5 (fun _ => (0 : Int)) (fun _ => (0 : Int))).1 (by norm_num)⟩

/-- Counterexample to C7 as stated: for the requested size `2 ^ 32 + 1` the constructor
sets `mSize` to `2 ^ 32`, which is below the requested size. -/
theorem C7_counterexample :
    (ctor (2 ^ 32 + 1) (fun _ => (0 : Int)) (fun _ => (0 : Int))).mSize = 2 ^ 32 ∧
      ¬ (2 ^ 32 + 1 ≤ (ctor (2 ^ 32 + 1) (fun _ => (0 : Int)) (fun _ => (0 : Int))).mSize) := by
  decide

/-- C8. On a freshly constructed recorder, after any sequence of `updateClock` calls and
no write, `readBytesForLastPeriod` returns 0 for every period and leaves the whole state
unchanged. -/
theorem C8_empty_store_query {Time Bytes : Type} [Zero Time] [Sub Time] [LT Time]
    [DecidableRel ((· < ·) : Time → Time → Prop)] [Zero Bytes] [Add Bytes]
    (k : Nat) (tm : Nat → Time) (bm : Nat → Bytes) (clocks : List Time) (p : Time) :
    readBytesForLastPeriod (clocks.foldl updateClock (ctor k tm bm)) p =
      some (0, clocks.foldl updateClock (ctor k tm bm)) := by
  apply read_of_head_eq_tail
  obtain ⟨h1, h2⟩ := foldl_updateClock_fields clocks (ctor k tm bm : TrafficRecorder Time Bytes)
  rw [h1, h2]
  rfl

/-- C9. When `mClock - mLastTimeOfPrint > period`, `printAccuBitsForLastPeriod` leaves
`mLastTimeOfPrint` equal to the (unchanged) clock, `mAccuBytesOfPrint` equal to 0,
head = tail = 0 and slot 0 holding time 0 and bytes 0; a `readBytesForLastPeriod` issued
right afterwards returns 0 for every period. -/
theorem C9_report_flush_resets {Time Bytes : Type} [Zero Time] [Sub Time] [LT Time]
    [DecidableRel ((· < ·) : Time → Time → Prop)] [Zero Bytes] [Add Bytes]
    (s : TrafficRecorder Time Bytes) (period unit : Time)
    (hdue : s.mClock - s.mLastTimeOfPrint > period) :
    (printAccuBitsForLastPeriod s period unit).mLastTimeOfPrint = s.mClock ∧
      (printAccuBitsForLastPeriod s period unit).mClock = s.mClock ∧
      (printAccuBitsForLastPeriod s period unit).mAccuBytesOfPrint = 0 ∧
      (printAccuBitsForLastPeriod s period unit).mHeadIdx = 0 ∧
      (printAccuBitsForLastPeriod s period unit).mTailIdx = 0 ∧
      (printAccuBitsForLastPeriod s period unit).mTimeArray 0 = 0 ∧
      (printAccuBitsForLastPeriod s period unit).mBytesArray 0 = 0 ∧
      ∀ p, readBytesForLastPeriod (printAccuBitsForLastPeriod s period unit) p =
        some (0, printAccuBitsForLastPeriod s period unit) := by
  have hs : printAccuBitsForLastPeriod s period unit =
      init { s with mLastTimeOfPrint := s.mClock, mAccuBytesOfPrint := 0 } := by
    unfold printAccuBitsForLastPeriod
    simp only [hdue, if_true]
  rw [hs]
  refine ⟨rfl, rfl, rfl, rfl, rfl, ?_, ?_, fun p => read_of_head_eq_tail _ rfl p⟩
  · simp [init]
  · simp [init]

/-- Witness of C9: a recorder of capacity 4 with the clock at 10, period 5. -/
theorem C9_report_flush_resets_witness :
    (printAccuBitsForLastPeriod
        (updateClock (ctor 4 (fun _ => (0 : Int)) (fun _ => (0 : Int))) 10) 5 1).mLastTimeOfPrint
      = 10 :=
  (C9_report_flush_resets (updateClock (ctor 4 (fun _ => (0 : Int)) (fun _ => (0 : Int))) 10)
    5 1 (by decide)).1

/-- C10. When `mClock - mLastTimeOfPrint ≤ period`, `printAccuBitsForLastPeriod` returns
the state it was given: no field changes. -/
theorem C10_report_noop_when_not_due {Time Bytes : Type} [Zero Time] [Sub Time]
    [LinearOrder Time] [Zero Bytes]
    (s : TrafficRecorder Time Bytes) (period unit : Time)
    (hnot : s.mClock - s.mLastTimeOfPrint ≤ period) :
    printAccuBitsForLastPeriod s period unit = s := by
  unfold printAccuBitsForLastPeriod
  simp only [gt_iff_lt, not_lt.mpr hnot, if_false]

/-- Witness of C10: a recorder of capacity 4 with the clock at 10, period 10. -/
theorem C10_report_noop_when_not_due_witness :
    printAccuBitsForLastPeriod
        (updateClock (ctor 4 (fun _ => (0 : Int)) (fun _ => (0 : Int))) 10) 10 1
      = updateClock (ctor 4 (fun _ => (0 : Int)) (fun _ => (0 : Int))) 10 :=
  C10_report_noop_when_not_due
    (updateClock (ctor 4 (fun _ => (0 : Int)) (fun _ => (0 : Int))) 10) 10 1 (by decide)

/-- C11. In the state reached from construction by any sequence of `init`, `updateClock`,
`writeBytes`, `readBytesForLastPeriod` and `printAccuBitsForLastPeriod` calls (every call
returns), `mAccuBytesOfPrint` is the sum of the arguments of the `writeBytes` calls made
since the last `printAccuBitsForLastPeriod` call that flushed, or since construction if
none flushed. -/
theorem C11_print_accumulator_tracks_writes (k : Nat) (tm bm : Nat → Int) (ops : List Op) :
    ∃ s, runOps (ctor k tm bm) ops = some s ∧
      s.mAccuBytesOfPrint = (bytesSinceFlush 0 0 [] ops).sum :=
  runOps_accu ops (ctor k tm bm) (ctor_wellFormed k tm bm) [] rfl

/-- C12 at its failing input. On a recorder of requested size 2, `updateClock(0)` then
`writeBytes(5)` leaves head = 1 and tail = 0, so the slots from head to tail are slot 1,
which was never written and still holds what the allocation left there, and slot 0 with
time 0; with zero-filled arrays both hold the timestamp 0. -/
theorem C12_order_broken_at_clock_zero :
    (∀ tm bm : Nat → Int,
      (run (ctor 2 tm bm) [Call.AdvanceClock 0, Call.RecordBytes 5]).mHeadIdx = 1 ∧
        (run (ctor 2 tm bm) [Call.AdvanceClock 0, Call.RecordBytes 5]).mTailIdx = 0 ∧
        (run (ctor 2 tm bm) [Call.AdvanceClock 0, Call.RecordBytes 5]).mTimeArray 1 = tm 1 ∧
        (run (ctor 2 tm bm) [Call.AdvanceClock 0, Call.RecordBytes 5]).mTimeArray 0 = 0) ∧
      (run (ctor 2 (fun _ => (0 : Int)) (fun _ => (0 : Int)))
          [Call.AdvanceClock 0, Call.RecordBytes 5]).mTimeArray 1 =
        (run (ctor 2 (fun _ => (0 : Int)) (fun _ => (0 : Int)))
          [Call.AdvanceClock 0, Call.RecordBytes 5]).mTimeArray 0 := by
  refine ⟨fun tm bm => ?_, by decide⟩
  have hwf : WellFormed (updateClock (ctor 2 tm bm) 0) :=
    updateClock_wellFormed _ (ctor_wellFormed 2 tm bm) 0
  have hc : (updateClock (ctor 2 tm bm) 0).mClock =
      (updateClock (ctor 2 tm bm) 0).mTimeArray (updateClock (ctor 2 tm bm) 0).mTailIdx := by
    simp [updateClock, ctor, init]
  have e : run (ctor 2 tm bm) [Call.AdvanceClock 0, Call.RecordBytes 5] =
      writeBytes (updateClock (ctor 2 tm bm) 0) 5 := rfl
  rw [e, writeBytes_coalesce _ hwf 5 hc]
  refine ⟨rfl, rfl, ?_, ?_⟩
  · simp [updateClock, ctor, init]
  · simp [updateClock, ctor, init]

/-- C13 at its failing input. On a freshly constructed recorder of requested size 4 the
timestamp at tail equals the clock (both 0), and `writeBytes(5)` moves head from 0 to 1
although no sample is appended (tail stays 0). -/
theorem C13_coalescing_write_moves_head :
    (ctor 4 (fun _ => (0 : Int)) (fun _ => (0 : Int))).mTimeArray
        (ctor 4 (fun _ => (0 : Int)) (fun _ => (0 : Int))).mTailIdx
      = (ctor 4 (fun _ => (0 : Int)) (fun _ => (0 : Int))).mClock ∧
      (ctor 4 (fun _ => (0 : Int)) (fun _ => (0 : Int))).mHeadIdx = 0 ∧
      (writeBytes (ctor 4 (fun _ => (0 : Int)) (fun _ => (0 : Int))) 5).mHeadIdx = 1 ∧
      (writeBytes (ctor 4 (fun _ => (0 : Int)) (fun _ => (0 : Int))) 5).mTailIdx = 0 := by
  decide

/-- C14. On a well-formed recorder over the integers and for every period `p`,
`readBytesForLastPeriod(p)` returns a value `v` and changes only head, to some `h2`, with:
(1) `h2` is reached from tail by `m` predecessor steps, `m` at most the distance from tail
back to the old head; (2) each of the `m` slots walked before `h2`, tail first, holds a
timestamp `≥ mClock - p`; (3) `v` is the sum of the byte counts of exactly those slots;
(4) if `h2` is not the old head, the timestamp at `h2` is `< mClock - p`; (5) tail, clock,
both accumulators and both arrays are as before. -/
theorem C14_read_postcondition (s : TrafficRecorder Int Int) (hwf : WellFormed s) (p : Int) :
    ∃ v h2 m, readBytesForLastPeriod s p = some (v, { s with mHeadIdx := h2 }) ∧
      h2 < s.mSize ∧
      m ≤ backDist s.mSize s.mTailIdx s.mHeadIdx ∧
      h2 = Nat.iterate (predIdx s.mSize) m s.mTailIdx ∧
      (∀ x ∈ walkBack s m s.mTailIdx, s.mClock - p ≤ x.1) ∧
      v = ((walkBack s m s.mTailIdx).map Prod.snd).sum ∧
      (h2 ≠ s.mHeadIdx → s.mTimeArray h2 < s.mClock - p) := by
  obtain ⟨j, v, hr, hread⟩ := read_total s hwf p
  obtain ⟨hj, hsum, hv, hall, hstop⟩ :=
    readLoop_post s hwf (s.mClock - p) s.mSize s.mTailIdx 0 hwf.2.2.2 j v hr
  refine ⟨v, j, backDist s.mSize s.mTailIdx j, hread, hj, by omega, ?_, hall, ?_, hstop⟩
  · exact (iterate_predIdx_backDist s.mSize _ s.mTailIdx j hwf.2.2.2 hj rfl).symm
  · rw [hv]; omega

/-- Witness of C14: the prepared state of the window examples at capacity 4, period 15. -/
theorem C14_read_postcondition_witness :
    ∃ v h2 m, readBytesForLastPeriod (windowExample 4 (fun _ => 0) (fun _ => 0)) 15 =
        some (v, { windowExample 4 (fun _ => 0) (fun _ => 0) with mHeadIdx := h2 }) ∧
      h2 < (windowExample 4 (fun _ => 0) (fun _ => 0)).mSize ∧
      m ≤ backDist (windowExample 4 (fun _ => 0) (fun _ => 0)).mSize
        (windowExample 4 (fun _ => 0) (fun _ => 0)).mTailIdx
        (windowExample 4 (fun _ => 0) (fun _ => 0)).mHeadIdx ∧
      h2 = Nat.iterate (predIdx (windowExample 4 (fun _ => 0) (fun _ => 0)).mSize) m
        (windowExample 4 (fun _ => 0) (fun _ => 0)).mTailIdx ∧
      (∀ x ∈ walkBack (windowExample 4 (fun _ => 0) (fun _ => 0)) m
          (windowExample 4 (fun _ => 0) (fun _ => 0)).mTailIdx,
        (windowExample 4 (fun _ => 0) (fun _ => 0)).mClock - 15 ≤ x.1) ∧
      v = ((walkBack (windowExample 4 (fun _ => 0) (fun _ => 0)) m
        (windowExample 4 (fun _ => 0) (fun _ => 0)).mTailIdx).map Prod.snd).sum ∧
      (h2 ≠ (windowExample 4 (fun _ => 0) (fun _ => 0)).mHeadIdx →
        (windowExample 4 (fun _ => 0) (fun _ => 0)).mTimeArray h2 <
          (windowExample 4 (fun _ => 0) (fun _ => 0)).mClock - 15) :=
  C14_read_postcondition (windowExample 4 (fun _ => 0) (fun _ => 0))
    (windowExample_fields 4 (le_refl _) _ _).1 15

/-- C15. For every requested size, the state reached from construction by any sequence of
`init`, `updateClock`, `writeBytes`, `readBytesForLastPeriod` and
`printAccuBitsForLastPeriod` calls with arbitrary arguments exists (every call returns),
keeps the capacity, has head and tail below the capacity, and from it every array index
used by `writeBytes` and by the loop of `readBytesForLastPeriod` is below the capacity. -/
theorem C15_index_bounds (k : Nat) (tm bm : Nat → Int) (ops : List Op) :
    ∃ s, runOps (ctor k tm bm) ops = some s ∧
      s.mSize = (ctor k tm bm).mSize ∧
      s.mHeadIdx < s.mSize ∧ s.mTailIdx < s.mSize ∧
      (∀ x ∈ writeBytesIndices s, x < s.mSize) ∧
      ∀ p, ∀ x ∈ readLoopIndices s (s.mClock - p) s.mSize s.mTailIdx, x < s.mSize := by
  obtain ⟨s, hs, hwf, hsz⟩ := runOps_wellFormed ops (ctor k tm bm) (ctor_wellFormed k tm bm)
  exact ⟨s, hs, hsz, hwf.2.2.1, hwf.2.2.2, writeBytesIndices_lt s hwf,
    fun p => readLoopIndices_lt s hwf _ _ _ hwf.2.2.2⟩

/-- C16. On a well-formed recorder the loop of `readBytesForLastPeriod` is done within
`(tail - head) mod C` entries into its body: with that bound it returns, the method's own
bound gives the same result, the body is entered at most that many times, and that
number is at most `C - 1`. -/
theorem C16_read_terminates (s : TrafficRecorder Int Int) (hwf : WellFormed s) (p : Int) :
    (∃ r, readLoop s (s.mClock - p)
          ((((s.mTailIdx : Int) - (s.mHeadIdx : Int)) % (s.mSize : Int)).toNat) s.mTailIdx 0
          = some r ∧
        readLoop s (s.mClock - p) s.mSize s.mTailIdx 0 = some r) ∧
      (readLoopIndices s (s.mClock - p) s.mSize s.mTailIdx).length ≤
        (((s.mTailIdx : Int) - (s.mHeadIdx : Int)) % (s.mSize : Int)).toNat ∧
      (((s.mTailIdx : Int) - (s.mHeadIdx : Int)) % (s.mSize : Int)).toNat ≤ s.mSize - 1 := by
  have hH := hwf.2.2.1
  have hT := hwf.2.2.2
  rw [backDist_eq_emod s.mSize s.mTailIdx s.mHeadIdx hT hH]
  have hlt := backDist_lt s.mSize s.mTailIdx s.mHeadIdx hT hH
  obtain ⟨r, hr⟩ := readLoop_total s hwf (s.mClock - p) _ s.mTailIdx 0 hT (le_refl _)
  exact ⟨⟨r, hr, readLoop_fuel_mono s _ _ s.mSize _ _ r hr (le_of_lt hlt)⟩,
    readLoopIndices_length s hwf _ _ _ hT, by omega⟩

/-- Witness of C16: the prepared state of the window examples at capacity 4, period 100. -/
theorem C16_read_terminates_witness :
    (readLoopIndices (windowExample 4 (fun _ => 0) (fun _ => 0))
        ((windowExample 4 (fun _ => 0) (fun _ => 0)).mClock - 100)
        (windowExample 4 (fun _ => 0) (fun _ => 0)).mSize
        (windowExample 4 (fun _ => 0) (fun _ => 0)).mTailIdx).length ≤
      ((((windowExample 4 (fun _ => 0) (fun _ => 0)).mTailIdx : Int) -
        ((windowExample 4 (fun _ => 0) (fun _ => 0)).mHeadIdx : Int)) %
        ((windowExample 4 (fun _ => 0) (fun _ => 0)).mSize : Int)).toNat :=
  (C16_read_terminates (windowExample 4 (fun _ => 0) (fun _ => 0))
    (windowExample_fields 4 (le_refl _) _ _).1 100).2.1

/-- C17. For every requested size the constructor leaves `mSize = 2 ^ e` with `e ≤ 32`
and `mSizeMask = mSize - 1`; hence `x & mSizeMask = x % mSize` for every `x < 2 * mSize`,
the `% mSize` successor of `writeBytes` equals the `& mSizeMask` successor used for head,
and the `& mSizeMask` predecessor of the read loop is the predecessor modulo `mSize`. -/
theorem C17_mask_is_modulo {Time Bytes : Type} [Zero Time] [Zero Bytes] (k : Nat)
    (tm : Nat → Time) (bm : Nat → Bytes) :
    (∃ e, e ≤ 32 ∧ (ctor k tm bm).mSize = 2 ^ e) ∧
      (ctor k tm bm).mSizeMask = (ctor k tm bm).mSize - 1 ∧
      (∀ x, x < 2 * (ctor k tm bm).mSize →
        x &&& (ctor k tm bm).mSizeMask = x % (ctor k tm bm).mSize) ∧
      (∀ i, i < (ctor k tm bm).mSize →
        ((i + 1) % 2 ^ 64) % (ctor k tm bm).mSize
          = ((i + 1) % 2 ^ 64) &&& (ctor k tm bm).mSizeMask) ∧
      ∀ i, i < (ctor k tm bm).mSize →
        ((i + (ctor k tm bm).mSize + (2 ^ 64 - 1)) % 2 ^ 64) &&& (ctor k tm bm).mSizeMask
          = (i + (ctor k tm bm).mSize - 1) % (ctor k tm bm).mSize := by
  obtain ⟨⟨e, he, hC⟩, hM, -, -⟩ := ctor_wellFormed k tm bm
  refine ⟨⟨e, he, hC⟩, hM, fun x _ => ?_, fun i hi => ?_, fun i hi => ?_⟩
  · rw [hM, hC, Nat.and_pow_two_sub_one_eq_mod]
  · rw [hM, nextIdx_mod _ e i he hC hi, nextIdx_mask _ e i he hC hi]
  · rw [hM, prevIdx_eq _ e i he hC hi]
    unfold predIdx
    split
    · rename_i h0
      subst h0
      rw [Nat.zero_add]; exact (Nat.mod_eq_of_lt (by omega)).symm
    · have : i + (ctor k tm bm).mSize - 1 = (i - 1) + (ctor k tm bm).mSize := by omega
      rw [this, Nat.add_mod_right]
      exact (Nat.mod_eq_of_lt (by omega)).symm

/-- Witness of C17: requested size 5 (capacity 8), `x = 13`. -/
theorem C17_mask_is_modulo_witness :
    13 &&& (ctor 5 (fun _ => (0 : Int)) (fun _ => (0 : Int))).mSizeMask
      = 13 % (ctor 5 (fun _ => (0 : Int)) (fun _ => (0 : Int))).mSize :=
  (C17_mask_is_modulo 5 (fun _ => (0 : Int)) (fun _ => (0 : Int))).2.2.1 13 (by decide)

/-- C18. With integer time and byte counts: on a recorder freshly constructed with
capacity `C ≥ 2`, after `n ≥ 1` `updateClock`/`writeBytes` pairs at strictly increasing
positive clock values `t1 < ... < tn`, the clock is `tn` and `readBytesForLastPeriod(p)`
with `p ≥ tn - t1` returns the sum of the byte counts of the `min n (C - 1)` most recent
writes. In any state the value read does not depend on the byte count stored at head. -/
theorem C18_only_capacity_minus_one_counted (k : Nat) (tm bm : Nat → Int) (w : Int × Int)
    (r : List (Int × Int)) (p : Int)
    (_hC : 2 ≤ (ctor k tm bm).mSize)
    (hinc : ((w :: r).map Prod.fst).Pairwise (· < ·)) (hpos : ∀ x ∈ w :: r, 0 < x.1)
    (hp : ((w :: r).getLast (List.cons_ne_nil w r)).1 - w.1 ≤ p) :
    (recordAll (ctor k tm bm) (w :: r)).mClock = ((w :: r).getLast (List.cons_ne_nil w r)).1 ∧
      (readBytesForLastPeriod (recordAll (ctor k tm bm) (w :: r)) p).map Prod.fst =
        some ((((w :: r).reverse.take
          (min (w :: r).length ((ctor k tm bm).mSize - 1))).map Prod.snd).sum) ∧
      ∀ (s : TrafficRecorder Int Int) (b q : Int),
        (readBytesForLastPeriod
            { s with mBytesArray := Function.update s.mBytesArray s.mHeadIdx b } q).map Prod.fst
          = (readBytesForLastPeriod s q).map Prod.fst := by
  have hclk := recordAll_clock (ctor k tm bm) w r
  refine ⟨hclk, ?_, fun s b q => read_head_bytes s b q⟩
  have hcover : ∀ x ∈ w :: r, (recordAll (ctor k tm bm) (w :: r)).mClock - p ≤ x.1 := by
    intro x hx
    rw [hclk]
    simp only [List.map_cons, List.pairwise_cons] at hinc
    rcases List.mem_cons.1 hx with rfl | hx
    · omega
    · have := hinc.1 x.1 (List.mem_map_of_mem _ hx)
      omega
  rw [read_after_recordAll k tm bm (w :: r) p hinc hpos hcover]
  congr 3
  rw [List.take_eq_take]
  simp only [List.length_reverse]
  omega

/-- Witness of C18: capacity 4, writes of 1, 2, 4, 8, 16 bytes at the clock values 1 to 5,
period 4. -/
theorem C18_only_capacity_minus_one_counted_witness :
    (readBytesForLastPeriod
        (recordAll (ctor 4 (fun _ => (0 : Int)) (fun _ => (0 : Int)))
          [((1 : Int), (1 : Int)), (2, 2), (3, 4), (4, 8), (5, 16)]) (4 : Int)).map Prod.fst =
      some (((([((1 : Int), (1 : Int)), (2, 2), (3, 4), (4, 8), (5, 16)]).reverse.take
        (min ([((1 : Int), (1 : Int)), (2, 2), (3, 4), (4, 8), (5, 16)]).length
          ((ctor 4 (fun _ => (0 : Int)) (fun _ => (0 : Int))).mSize - 1))).map Prod.snd).sum) := by
  have h1 : 2 ≤ (ctor 4 (fun _ => (0 : Int)) (fun _ => (0 : Int))).mSize := by decide
  have h2 : (([((1 : Int), (1 : Int)), (2, 2), (3, 4), (4, 8), (5, 16)]).map
      Prod.fst).Pairwise (· < ·) := by decide
  have h3 : ∀ x ∈ [((1 : Int), (1 : Int)), (2, 2), (3, 4), (4, 8), (5, 16)], 0 < x.1 := by
    decide
  have h4 : (([((1 : Int), (1 : Int)), (2, 2), (3, 4), (4, 8), (5, 16)]).getLast
      (List.cons_ne_nil _ _)).1 - ((1 : Int), (1 : Int)).1 ≤ 4 := by decide
  have h := C18_only_capacity_minus_one_counted 4 (fun _ => (0 : Int)) (fun _ => (0 : Int))
    ((1 : Int), (1 : Int)) [(2, 2), (3, 4), (4, 8), (5, 16)] 4 h1 h2 h3 h4
  exact h.2.1

/-- C19. For a recorder constructed with requested size 0 or 1 the capacity is 1, and in
the state reached by any sequence of calls head = tail = 0 and `readBytesForLastPeriod`
returns 0 for every period. -/
theorem C19_capacity_one_reports_nothing (k : Nat) (hk : k ≤ 1) (tm bm : Nat → Int)
    (ops : List Op) :
    (ctor k tm bm).mSize = 1 ∧
      ∃ s, runOps (ctor k tm bm) ops = some s ∧ s.mHeadIdx = 0 ∧ s.mTailIdx = 0 ∧
        ∀ p, (readBytesForLastPeriod s p).map Prod.fst = some 0 := by
  have h1 := ctor_mSize_small k hk tm bm
  obtain ⟨s, hs, hwf, hsz⟩ := runOps_wellFormed ops (ctor k tm bm) (ctor_wellFormed k tm bm)
  have hH : s.mHeadIdx = 0 := by have := hwf.2.2.1; omega
  have hT : s.mTailIdx = 0 := by have := hwf.2.2.2; omega
  refine ⟨h1, s, hs, hH, hT, fun p => ?_⟩
  rw [read_of_head_eq_tail s (by rw [hH, hT]) p]
  rfl

/-- Witness of C19: requested size 1, a write of 7 bytes at clock 3, then a read. -/
theorem C19_capacity_one_reports_nothing_witness :
    (ctor 1 (fun _ => (0 : Int)) (fun _ => (0 : Int))).mSize = 1 ∧
      ∃ s, runOps (ctor 1 (fun _ => (0 : Int)) (fun _ => (0 : Int)))
          [Op.AdvanceClock 3, Op.RecordBytes 7, Op.SumLastPeriod 10] = some s ∧
        s.mHeadIdx = 0 ∧ s.mTailIdx = 0 ∧
        ∀ p, (readBytesForLastPeriod s p).map Prod.fst = some 0 :=
  C19_capacity_one_reports_nothing 1 (le_refl _) (fun _ => (0 : Int)) (fun _ => (0 : Int))
    [Op.AdvanceClock 3, Op.RecordBytes 7, Op.SumLastPeriod 10]

/-- C20 at its failing input. The object built by `TrafficRecorder()` has both array
pointers `NULL` and keeps whatever `mSize` and `mSizeMask` held, while
`TrafficRecorder(128)` gives capacity 128, mask 127 and two allocated arrays: the two
objects differ. -/
theorem C20_default_ctor_differs {Time Bytes : Type} [Zero Time] [Zero Bytes]
    (sizeMem maskMem : Nat) (tm tm2 : Nat → Time) (bm bm2 : Nat → Bytes) :
    (defaultCtor sizeMem maskMem tm bm).mTimeArray = none ∧
      (defaultCtor sizeMem maskMem tm bm).mBytesArray = none ∧
      (defaultCtor sizeMem maskMem tm bm).mSize = sizeMem ∧
      (defaultCtor sizeMem maskMem tm bm).mSizeMask = maskMem ∧
      (membersOf (ctor 128 tm2 bm2)).mSize = 128 ∧
      (membersOf (ctor 128 tm2 bm2)).mSizeMask = 127 ∧
      (membersOf (ctor 128 tm2 bm2)).mTimeArray ≠ none ∧
      (membersOf (ctor 128 tm2 bm2)).mBytesArray ≠ none ∧
      defaultCtor sizeMem maskMem tm bm ≠ membersOf (ctor 128 tm2 bm2) := by
  refine ⟨rfl, rfl, rfl, rfl, rfl, rfl, ?_, ?_, ?_⟩
  · simp [membersOf]
  · simp [membersOf]
  · intro h
    have h2 := congrArg Members.mTimeArray h
    simp [membersOf, defaultCtor] at h2

end android
